import Mathlib

/-!
# Verification of `tracing-utils` (tracing-memory, parse-env-filter, tracing-egui)

A shallow embedding of the core of the repository:

* `Archive` — the field-value domain and field-recording of
  `libs/tracing-memory/src/archive.rs` (`Field`, `Event::record_field`,
  `Span::record_field`, `Field::with_debug`), plus the ingest-queue /
  snapshot pair of `libs/tracing-memory/src/lib.rs` (`with_events`) and
  `libs/tracing-memory/src/layer.rs` (`on_event` pushing to `EVENT_QUEUE`).
* `Lazy` / `Eager` — the streaming directive parser of
  `libs/parse-env-filter/src/lazy.rs` and its eager wrapper
  `libs/parse-env-filter/src/eager.rs`.
* `Egui` — the directive evaluator of `libs/tracing-egui/src/filter.rs`
  (`EventFilter::includes`, `Directive::from_str`).

Rust `&str` values are modelled as `List Char`.  All structural bytes of the
directive grammar (`[ ] { } = ,`) and the reserved bytes (`"` and `/`) are
ASCII, and ASCII bytes never occur inside a multi-byte UTF-8 character, so the
byte-level scanning of the source is faithfully represented by char-level
scanning.
-/

/-- `String.toList` shorthand used to build concrete inputs. -/
def strL (s : String) : List Char := s.toList

/-- ASCII digit test (`u8::is_ascii_digit` / the digits accepted by
`usize::from_str`). -/
def isDig (c : Char) : Bool := 48 ≤ c.toNat && c.toNat ≤ 57

/-- ASCII letter test. -/
def isAlphaA (c : Char) : Bool :=
  (65 ≤ c.toNat && c.toNat ≤ 90) || (97 ≤ c.toNat && c.toNat ≤ 122)

/-- `u8::to_ascii_lowercase`: shift `A`-`Z` down by 32, leave the rest. -/
def lowerA (c : Char) : Char :=
  if 65 ≤ c.toNat ∧ c.toNat ≤ 90 then Char.ofNat (c.toNat + 32) else c

/-- `str::eq_ignore_ascii_case`: pointwise ASCII-case-insensitive equality. -/
def eqIC : List Char → List Char → Bool
  | [], [] => true
  | a :: as', b :: bs' => (lowerA a == lowerA b) && eqIC as' bs'
  | _, _ => false

/-- `haystack.matches(needle).any(|_| true)`: `needle` occurs in `haystack`
as a contiguous substring (an empty needle always matches). -/
def containsSub (needle : List Char) : List Char → Bool
  | [] => needle.isEmpty
  | c :: t => needle.isPrefixOf (c :: t) || containsSub needle t

/-- Split a list at the first character failing `p`:
returns `(s.takeWhile p, s.dropWhile p)` with the append structure explicit. -/
def spanP (p : Char → Bool) : List Char → List Char × List Char
  | [] => ([], [])
  | c :: rest =>
    if p c then
      let (a, b) := spanP p rest
      (c :: a, b)
    else ([], c :: rest)

/-- `find_syntax`: split at the first occurrence of `t`; `some (a, b)` means
the input is `a ++ t :: b` with `t ∉ a`. -/
def splitChar (t : Char) : List Char → Option (List Char × List Char)
  | [] => none
  | c :: rest =>
    if c = t then some ([], rest)
    else (splitChar t rest).map (fun ab => (c :: ab.1, ab.2))

/-- `str::split(',')` (as used by `EventFilter::from_str`). -/
def splitComma : List Char → List (List Char)
  | [] => [[]]
  | c :: rest =>
    if c = ',' then [] :: splitComma rest
    else
      match splitComma rest with
      | [] => [[c]]
      | g :: gs => (c :: g) :: gs

namespace Archive

/-- `tracing_memory::archive::Field`.  `I64`/`U64` carry the recorded machine
integers (no arithmetic is ever performed on them, so `Int`/`Nat` carry the
values exactly); the three string-like variants carry their text. -/
inductive Field where
  | I64 (value : Int)
  | U64 (value : Nat)
  | Bool' (value : Bool)
  | Str (value : List Char)
  | Error (value : List Char)
  | Debug (value : List Char)
  | Multiple (values : List Field)

/-- Is this a `Field::Multiple`? -/
def Field.isMult : Field → Bool
  | .Multiple _ => true
  | _ => false

/-- The stated invariant of a single field entry: a `Multiple` is non-empty
and never directly contains a `Multiple`. -/
def Field.wfB : Field → Bool
  | .Multiple xs => !xs.isEmpty && xs.all (fun x => !x.isMult)
  | _ => true

/-- The merge performed by `record_field` on an existing entry: a `Multiple`
appends the new value, anything else is wrapped as `Multiple([old, new])`. -/
def Field.merge : Field → Field → Field
  | .Multiple xs, v => .Multiple (xs ++ [v])
  | e, v => .Multiple [e, v]

/-- The shared body of `Event::record_field` and `Span::record_field`
(the two are textually identical): `fields.entry(name).and_modify(merge)
.or_insert_with(value)` over the insertion-ordered field map, modelled as an
association list (modify in place keeps the position; a fresh name is
appended at the end). -/
def recordField : List (List Char × Field) → List Char → Field → List (List Char × Field)
  | [], n, v => [(n, v)]
  | (k, e) :: rest, n, v =>
    if k = n then (k, e.merge v) :: rest
    else (k, e) :: recordField rest n v

/-- One `with_debug` iterator state step, with fuel standing in for the
internal `return self.next()` recursion of
`<WithDebug as Iterator>::next` (archive.rs:140-168).  The state is
`(self.0, self.1)`: the current slice and the stack of pending slices.
`some out` means the iteration terminates yielding the leaves `out` in
order; `none` means the fuel ran out before the iteration finished. -/
def wdRun : Nat → List Field → List (List Field) → Option (List Field)
  | 0, _, _ => none
  | _ + 1, [], [] => some []
  | n + 1, [], top :: rest => wdRun n top rest
  | n + 1, .Multiple values :: tail, stack =>
    if tail.isEmpty then wdRun n values stack
    else if values.isEmpty then wdRun n (.Multiple values :: tail) stack
    else wdRun n (.Multiple values :: tail) (values :: stack)
  | n + 1, head :: tail, stack => (wdRun n tail stack).map (head :: ·)

/-- The leaves `Field::with_debug` presents to the visitor for a field
satisfying the `Multiple` invariant: the children of a `Multiple`, or the
field itself. -/
def leavesOf : Field → List Field
  | .Multiple xs => xs
  | f => [f]

/-- The operations touching the global `EVENT_QUEUE` / `EVENT_LOG` pair of
`lib.rs`, in the linearization order imposed by the queue's internal
synchronization: `publish` is `on_event`'s final `EVENT_QUEUE.push`
(events are identified by ids standing for the `Arc<Event>` records),
`snapshot` is a `with_events` call. -/
inductive AOp where
  | publish (e : Nat)
  | snapshot

/-- The shared state: the lock-free ingest queue (FIFO, front at the head)
and the mutex-guarded archive vector. -/
structure AState where
  queue : List Nat
  log : List Nat

/-- One operation against the shared state.  `publish` enqueues at the back;
`snapshot` is the body of `with_events`: drain the whole queue into the
archive vector (`events.extend(iter::from_fn(|| EVENT_QUEUE.pop()))`),
pop order = FIFO order. -/
def stepA (s : AState) : AOp → AState
  | .publish e => ⟨s.queue ++ [e], s.log⟩
  | .snapshot => ⟨[], s.log ++ s.queue⟩

/-- Run a history of operations from the initial empty state
(`const_mutex(Vec::new())` / `SegQueue::new()`). -/
def runA (ops : List AOp) : AState := ops.foldl stepA ⟨[], []⟩

/-- The events published over a history, in publication (queue FIFO) order. -/
def pushedA (ops : List AOp) : List Nat :=
  ops.filterMap fun op =>
    match op with
    | .publish e => some e
    | .snapshot => none

/-- `with_events cb` after history `ops`: the vector handed to `cb` and the
state on exit (queue drained, vector retained). -/
def withEvents (ops : List AOp) : List Nat × AState :=
  let s := runA ops
  (s.log ++ s.queue, ⟨[], s.log ++ s.queue⟩)

end Archive

/-- `parse_env_filter::ParseError`. -/
inductive ParseError where
  | BadSyntax
  | ReservedSyntax
deriving DecidableEq

/-- The six structural bytes matched by `find_any_syntax` (lazy.rs `Syntax`). -/
def isSyntaxChar (c : Char) : Bool :=
  c = '[' || c = ']' || c = '{' || c = '}' || c = '=' || c = ','

namespace Lazy

/-- A pulled `lazy::Filter`: the span part, when present, is the *unparsed*
slice between `[` and `]` (the source stores it as a `SpanFilters`
parser-iterator whose state is exactly that slice). -/
structure Filter where
  target : List Char
  span : Option (List Char)
  level : Option (List Char)
deriving DecidableEq

/-- A pulled `lazy::SpanFilter`: the fields part, when present, is the
unparsed slice between `{` and `}`. -/
structure SpanFilter where
  name : List Char
  fields : Option (List Char)
deriving DecidableEq

/-- `lazy::FieldFilter`. -/
structure FieldFilter where
  name : List Char
  value : Option (List Char)
deriving DecidableEq

/-! Each parser-iterator (`Filters`, `SpanFilters`, `FieldFilters`) is just
its `directives` field, a `List Char`.  Its `next` returns `none` when
iteration is over and otherwise the yielded item together with the new
`directives` state.  Every error path in the source goes through
`self.err()`, which sets `directives` to `""` before returning the error;
the embedding clears the returned state on every error accordingly. -/

/-- `Filters::target` (lazy.rs:113-132): scan to the first structural byte;
`]`, `{`, `}` are bad, `[`, `=`, `,` or end of input delimit the target. -/
def Filters.target (s : List Char) : Except ParseError (List Char × List Char) :=
  match spanP (fun c => !isSyntaxChar c) s with
  | (pre, []) => .ok (pre, [])
  | (pre, c :: rest) =>
    if c = ']' || c = '{' || c = '}' then .error .BadSyntax
    else .ok (pre, c :: rest)

/-- `Filters::span` (lazy.rs:134-151): if the input starts with `[`, the span
part is everything up to the first `]` (missing `]` is bad syntax). -/
def Filters.spanPart (s : List Char) : Except ParseError (Option (List Char) × List Char) :=
  match s with
  | [] => .ok (none, [])
  | c :: rest =>
    if c = '[' then
      match splitChar ']' rest with
      | none => .error .BadSyntax
      | some (content, after) => .ok (some content, after)
    else .ok (none, c :: rest)

/-- `Filters::level` (lazy.rs:153-181): nothing to do at end of input or at a
`,`; otherwise `=` must follow, and the level runs to `,` or end of input
(any other structural byte is bad syntax). -/
def Filters.levelPart (s : List Char) : Except ParseError (Option (List Char) × List Char) :=
  match s with
  | [] => .ok (none, [])
  | c :: rest =>
    if c = ',' then .ok (none, c :: rest)
    else if c = '=' then
      match spanP (fun c => !isSyntaxChar c) rest with
      | (pre, []) => .ok (some pre, [])
      | (pre, c' :: r2) =>
        if c' = ',' then .ok (some pre, c' :: r2) else .error .BadSyntax
    else .error .BadSyntax

/-- `Filters::comma` (lazy.rs:183-192): consume one `,`, or accept the end of
input. -/
def Filters.comma (s : List Char) : Except ParseError (List Char) :=
  match s with
  | [] => .ok []
  | c :: rest => if c = ',' then .ok rest else .error .BadSyntax

/-- The closure body of `<Filters as Iterator>::next` (lazy.rs:209-219). -/
def Filters.nextCore (s : List Char) : Except ParseError (Filter × List Char) :=
  match Filters.target s with
  | .error e => .error e
  | .ok (tgt, s1) =>
    match Filters.spanPart s1 with
    | .error e => .error e
    | .ok (sp, s2) =>
      match Filters.levelPart s2 with
      | .error e => .error e
      | .ok (lv, s3) =>
        match Filters.comma s3 with
        | .error e => .error e
        | .ok s4 => .ok ({ target := tgt, span := sp, level := lv }, s4)

/-- `<Filters as Iterator>::next` (lazy.rs:195-220): `None` on empty input;
`ReservedSyntax` if the remaining input contains `"` or `/`; otherwise one
directive.  On any error the remaining input is cleared (`self.err`). -/
def Filters.next (s : List Char) : Option (Except ParseError Filter × List Char) :=
  if s = [] then none
  else if s.contains '"' || s.contains '/' then some (.error .ReservedSyntax, [])
  else
    match Filters.nextCore s with
    | .ok (f, s') => some (.ok f, s')
    | .error e => some (.error e, [])

/-- `SpanFilters::name` (lazy.rs:243-262): `[`, `]`, `}`, `=` are bad;
`{`, `,` or end delimit the span name. -/
def SpanFilters.name (s : List Char) : Except ParseError (List Char × List Char) :=
  match spanP (fun c => !isSyntaxChar c) s with
  | (pre, []) => .ok (pre, [])
  | (pre, c :: rest) =>
    if c = '{' || c = ',' then .ok (pre, c :: rest)
    else .error .BadSyntax

/-- `SpanFilters::fields` (lazy.rs:264-281): if the input starts with `{`,
the fields part runs to the first `}`. -/
def SpanFilters.fieldsPart (s : List Char) : Except ParseError (Option (List Char) × List Char) :=
  match s with
  | [] => .ok (none, [])
  | c :: rest =>
    if c = '{' then
      match splitChar '}' rest with
      | none => .error .BadSyntax
      | some (content, after) => .ok (some content, after)
    else .ok (none, c :: rest)

/-- `SpanFilters::comma` (lazy.rs:283-292), same as `Filters::comma`. -/
def SpanFilters.comma (s : List Char) : Except ParseError (List Char) :=
  match s with
  | [] => .ok []
  | c :: rest => if c = ',' then .ok rest else .error .BadSyntax

/-- The closure body of `<SpanFilters as Iterator>::next` (lazy.rs:309-314). -/
def SpanFilters.nextCore (s : List Char) : Except ParseError (SpanFilter × List Char) :=
  match SpanFilters.name s with
  | .error e => .error e
  | .ok (nm, s1) =>
    match SpanFilters.fieldsPart s1 with
    | .error e => .error e
    | .ok (fds, s2) =>
      match SpanFilters.comma s2 with
      | .error e => .error e
      | .ok s3 => .ok ({ name := nm, fields := fds }, s3)

/-- `<SpanFilters as Iterator>::next` (lazy.rs:295-315). -/
def SpanFilters.next (s : List Char) : Option (Except ParseError SpanFilter × List Char) :=
  if s = [] then none
  else if s.contains '"' || s.contains '/' then some (.error .ReservedSyntax, [])
  else
    match SpanFilters.nextCore s with
    | .ok (f, s') => some (.ok f, s')
    | .error e => some (.error e, [])

/-- `FieldFilters::name` (lazy.rs:338-357): `[`, `]`, `{`, `}` are bad;
`=`, `,` or end delimit the field name. -/
def FieldFilters.name (s : List Char) : Except ParseError (List Char × List Char) :=
  match spanP (fun c => !isSyntaxChar c) s with
  | (pre, []) => .ok (pre, [])
  | (pre, c :: rest) =>
    if c = '=' || c = ',' then .ok (pre, c :: rest)
    else .error .BadSyntax

/-- `FieldFilters::value` (lazy.rs:359-384): an optional `=` followed by a
value running to `,` or end of input. -/
def FieldFilters.valuePart (s : List Char) : Except ParseError (Option (List Char) × List Char) :=
  match s with
  | [] => .ok (none, [])
  | c :: rest =>
    if c = '=' then
      match spanP (fun c => !isSyntaxChar c) rest with
      | (pre, []) => .ok (some pre, [])
      | (pre, c' :: r2) =>
        if c' = ',' then .ok (some pre, c' :: r2) else .error .BadSyntax
    else .ok (none, c :: rest)

/-- `FieldFilters::comma` (lazy.rs:386-395). -/
def FieldFilters.comma (s : List Char) : Except ParseError (List Char) :=
  match s with
  | [] => .ok []
  | c :: rest => if c = ',' then .ok rest else .error .BadSyntax

/-- The closure body of `<FieldFilters as Iterator>::next` (lazy.rs:412-417). -/
def FieldFilters.nextCore (s : List Char) : Except ParseError (FieldFilter × List Char) :=
  match FieldFilters.name s with
  | .error e => .error e
  | .ok (nm, s1) =>
    match FieldFilters.valuePart s1 with
    | .error e => .error e
    | .ok (v, s2) =>
      match FieldFilters.comma s2 with
      | .error e => .error e
      | .ok s3 => .ok ({ name := nm, value := v }, s3)

/-- `<FieldFilters as Iterator>::next` (lazy.rs:398-418). -/
def FieldFilters.next (s : List Char) : Option (Except ParseError FieldFilter × List Char) :=
  if s = [] then none
  else if s.contains '"' || s.contains '/' then some (.error .ReservedSyntax, [])
  else
    match FieldFilters.nextCore s with
    | .ok (f, s') => some (.ok f, s')
    | .error e => some (.error e, [])

end Lazy

namespace Eager

/-- `eager::SpanFilter`. -/
structure SpanFilter where
  name : List Char
  fields : Option (List Lazy.FieldFilter)
deriving DecidableEq

/-- `eager::Filter`. -/
structure Filter where
  target : List Char
  span : Option (List SpanFilter)
  level : Option (List Char)
deriving DecidableEq

/-! The eager collectors drive the lazy iterators to exhaustion
(`Iterator::collect::<Result<Vec<_>, _>>`).  Each `next` that makes progress
strictly shrinks the iterator state, so a fuel of `input length + 1` always
suffices; the fuel is kept explicit and `none` marks fuel exhaustion
(which never occurs when starting from the wrappers below). -/

/-- Fully pull a `FieldFilters` iterator
(`filter.fields.map(|filters| filters.collect()).transpose()` in
`eager::SpanFilter::try_from`). -/
def collectFields : Nat → List Char → Option (Except ParseError (List Lazy.FieldFilter))
  | 0, _ => none
  | n + 1, s =>
    match Lazy.FieldFilters.next s with
    | none => some (.ok [])
    | some (.error e, _) => some (.error e)
    | some (.ok f, s') =>
      match collectFields n s' with
      | none => none
      | some (.error e) => some (.error e)
      | some (.ok fs) => some (.ok (f :: fs))

/-- The `fields` conversion of `eager::SpanFilter::try_from`. -/
def convFields (n : Nat) :
    Option (List Char) → Option (Except ParseError (Option (List Lazy.FieldFilter)))
  | none => some (.ok none)
  | some content =>
    match collectFields n content with
    | none => none
    | some (.error e) => some (.error e)
    | some (.ok fs) => some (.ok (some fs))

/-- Fully pull a `SpanFilters` iterator, converting each yielded span filter
(`eager::Filter::try_from`). -/
def collectSpans : Nat → List Char → Option (Except ParseError (List SpanFilter))
  | 0, _ => none
  | n + 1, s =>
    match Lazy.SpanFilters.next s with
    | none => some (.ok [])
    | some (.error e, _) => some (.error e)
    | some (.ok sf, s') =>
      match convFields n sf.fields with
      | none => none
      | some (.error e) => some (.error e)
      | some (.ok fds) =>
        match collectSpans n s' with
        | none => none
        | some (.error e) => some (.error e)
        | some (.ok sps) => some (.ok ({ name := sf.name, fields := fds } :: sps))

/-- The `span` conversion of `eager::Filter::try_from`. -/
def convSpans (n : Nat) :
    Option (List Char) → Option (Except ParseError (Option (List SpanFilter)))
  | none => some (.ok none)
  | some content =>
    match collectSpans n content with
    | none => none
    | some (.error e) => some (.error e)
    | some (.ok sps) => some (.ok (some sps))

/-- Fully pull a `Filters` iterator, converting each yielded filter
(`eager::filters`'s `map(try_from).collect()`). -/
def collectFilters : Nat → List Char → Option (Except ParseError (List Filter))
  | 0, _ => none
  | n + 1, s =>
    match Lazy.Filters.next s with
    | none => some (.ok [])
    | some (.error e, _) => some (.error e)
    | some (.ok lf, s') =>
      match convSpans n lf.span with
      | none => none
      | some (.error e) => some (.error e)
      | some (.ok sps) =>
        match collectFilters n s' with
        | none => none
        | some (.error e) => some (.error e)
        | some (.ok fs) =>
          some (.ok ({ target := lf.target, span := sps, level := lf.level } :: fs))

/-- `eager::filters` (eager.rs:13-17), with the always-sufficient fuel. -/
def filters (s : List Char) : Option (Except ParseError (List Filter)) :=
  collectFilters (s.length + 1) s

/-- The exact concatenation of one field filter's slices with its structural
bytes: `name` or `name=value`. -/
def renderField (f : Lazy.FieldFilter) : List Char :=
  f.name ++
    match f.value with
    | none => []
    | some v => '=' :: v

/-- Join rendered items with single `,` separators (no trailing comma). -/
def joinC : List (List Char) → List Char
  | [] => []
  | [x] => x
  | x :: xs => x ++ ',' :: joinC xs

/-- The exact concatenation of one span filter's slices with its structural
bytes: `name` or `name{field,…}`. -/
def renderSpan (sp : SpanFilter) : List Char :=
  sp.name ++
    match sp.fields with
    | none => []
    | some fs => '{' :: joinC (fs.map renderField) ++ ['}']

/-- The exact concatenation of one filter's slices with its structural bytes:
`target[span,…]=level` with the optional parts omitted when absent. -/
def renderFilter (f : Filter) : List Char :=
  f.target ++
    (match f.span with
     | none => []
     | some sps => '[' :: joinC (sps.map renderSpan) ++ [']']) ++
    match f.level with
    | none => []
    | some l => '=' :: l

/-- The exact reconstruction claimed by the zero-copy property: every
filter's slices with their separating structural bytes, filters separated by
single commas. -/
def renderFilters (fs : List Filter) : List Char :=
  joinC (fs.map renderFilter)

end Eager

/-- `RecList R items s`: `s` is the comma-separated rendering of `items`
(each item related to its slice of `s` by `R`), except that the last item
may additionally be followed by one trailing `,` that the parser consumed
but that the yielded items do not record. -/
inductive RecList (R : α → List Char → Prop) : List α → List Char → Prop where
  | nil : RecList R [] []
  | last (x : α) (s : List Char) : R x s → RecList R [x] s
  | cons (x : α) (s : List Char) (xs : List α) (rest : List Char) :
      R x s → RecList R xs rest → RecList R (x :: xs) (s ++ ',' :: rest)

/-- A field filter reconstructs exactly its `renderField`. -/
def RecField (f : Lazy.FieldFilter) (s : List Char) : Prop :=
  s = Eager.renderField f

/-- A span filter reconstructs its name and, when present, its brace-wrapped
field list (whose inner slice may carry a trailing comma). -/
def RecSpan (sp : Eager.SpanFilter) (s : List Char) : Prop :=
  match sp.fields with
  | none => s = sp.name
  | some fs => ∃ inner, RecList RecField fs inner ∧ s = sp.name ++ '{' :: inner ++ ['}']

/-- A filter reconstructs its target, its bracket-wrapped span list when
present (the inner slice may carry trailing commas), and its `=level` part
when present. -/
def RecFilter (f : Eager.Filter) (s : List Char) : Prop :=
  ∃ sp lv, s = f.target ++ sp ++ lv ∧
    (match f.span with
     | none => sp = []
     | some sps => ∃ inner, RecList RecSpan sps inner ∧ sp = '[' :: inner ++ [']']) ∧
    match f.level with
    | none => lv = []
    | some l => lv = '=' :: l

/-- The input consumed for one lazily yielded filter, excluding its optional
trailing comma: target, bracket-wrapped raw span slice, `=level`. -/
def Lazy.filterBody (f : Lazy.Filter) : List Char :=
  f.target ++
    (match f.span with
     | none => []
     | some c => '[' :: c ++ [']']) ++
    match f.level with
    | none => []
    | some l => '=' :: l

/-- The input consumed for one lazily yielded span filter, excluding its
optional trailing comma: name and brace-wrapped raw fields slice. -/
def Lazy.spanBody (sf : Lazy.SpanFilter) : List Char :=
  sf.name ++
    match sf.fields with
    | none => []
    | some c => '{' :: c ++ ['}']

namespace Egui

/-- `tracing::Level`: the five severities, ordered
`ERROR < WARN < INFO < DEBUG < TRACE` (more severe is lower-ordinal). -/
inductive Level where
  | error
  | warn
  | info
  | debug
  | trace
deriving DecidableEq

/-- `tracing::metadata::LevelFilter`: a `Level` or `OFF` (admits nothing). -/
inductive LevelFilter where
  | off
  | error
  | warn
  | info
  | debug
  | trace
deriving DecidableEq

/-- The ordinal of a `Level` (`ERROR = 1 … TRACE = 5`). -/
def Level.toNat : Level → Nat
  | .error => 1
  | .warn => 2
  | .info => 3
  | .debug => 4
  | .trace => 5

/-- The ordinal of a `LevelFilter` (`OFF = 0 … TRACE = 5`). -/
def LevelFilter.toNat : LevelFilter → Nat
  | .off => 0
  | .error => 1
  | .warn => 2
  | .info => 3
  | .debug => 4
  | .trace => 5

/-- `*event.meta().level() <= directive.level`: the cross comparison of a
`Level` against a `LevelFilter` by ordinal. -/
def Level.leFilter (l : Level) (f : LevelFilter) : Bool :=
  l.toNat ≤ f.toNat

/-- The digit string value used by `usize::from_str` inside
`Level::from_str`. -/
def natOfDigits (t : List Char) : Nat :=
  t.foldl (fun a c => a * 10 + (c.toNat - 48)) 0

/-- `tracing::Level::from_str` on the target segment (filter.rs:171):
first try `usize` (`1`-`5`), then the five level names ASCII-case-
insensitively.  (`usize::from_str` also accepts a leading `+`, but `+` is
not a target character so it can never reach this call.) -/
def levelOfTok (t : List Char) : Option Level :=
  match
    (if t ≠ [] && t.all isDig then
      match natOfDigits t with
      | 1 => some Level.error
      | 2 => some Level.warn
      | 3 => some Level.info
      | 4 => some Level.debug
      | 5 => some Level.trace
      | _ => none
     else none) with
  | some l => some l
  | none =>
    if eqIC t (strL "error") then some Level.error
    else if eqIC t (strL "warn") then some Level.warn
    else if eqIC t (strL "info") then some Level.info
    else if eqIC t (strL "debug") then some Level.debug
    else if eqIC t (strL "trace") then some Level.trace
    else none

/-- `LevelFilter::from_str` restricted to the tokens the `DIRECTIVE_RE`
level alternation `(?i:trace|debug|info|warn|error|off|[0-5])` can capture;
on those the two agree exactly. -/
def levelTok (t : List Char) : Option LevelFilter :=
  if t = ['0'] then some LevelFilter.off
  else if t = ['1'] then some LevelFilter.error
  else if t = ['2'] then some LevelFilter.warn
  else if t = ['3'] then some LevelFilter.info
  else if t = ['4'] then some LevelFilter.debug
  else if t = ['5'] then some LevelFilter.trace
  else if eqIC t (strL "off") then some LevelFilter.off
  else if eqIC t (strL "error") then some LevelFilter.error
  else if eqIC t (strL "warn") then some LevelFilter.warn
  else if eqIC t (strL "info") then some LevelFilter.info
  else if eqIC t (strL "debug") then some LevelFilter.debug
  else if eqIC t (strL "trace") then some LevelFilter.trace
  else none

/-- The `DIRECTIVE_RE` target character class `[\w:-]` (word characters
restricted to ASCII; multi-byte word characters never coincide with the
structural bytes the claims exercise). -/
def isTargetChar (c : Char) : Bool :=
  isAlphaA c || isDig c || c = '_' || c = ':' || c = '-'

/-- The token is one of the five severity level names, in any ASCII casing
(the name-matching arm of `Level::from_str`). -/
def isLevelName (t : List Char) : Bool :=
  eqIC t (strL "error") || eqIC t (strL "warn") || eqIC t (strL "info") ||
    eqIC t (strL "debug") || eqIC t (strL "trace")

/-- `tracing_egui::filter::FieldDirective`. -/
structure FieldDirective where
  name : List Char
  value : Option (List Char)
deriving DecidableEq

/-- `tracing_egui::filter::Directive`. -/
structure Directive where
  target : Option (List Char)
  span : Option (List Char)
  field : Option FieldDirective
  level : LevelFilter
deriving DecidableEq

/-- The `target` capture post-processing (filter.rs:169-176): a captured
target that itself parses as a `Level` is discarded. -/
def mkTarget (tseg : List Char) : Option (List Char) :=
  if tseg = [] then none
  else if (levelOfTok tseg).isSome then none
  else some tseg

/-- The `SPAN_PART_RE` / `FIELD_PART_RE` stage (filter.rs:178-195) applied to
the span capture.  `SPAN_PART_RE` is unanchored with both groups optional,
so it always matches at position 0: the name is the maximal run of
non-`{`/non-`]` characters (absent when empty), and the brace group matches
only when a `{` immediately follows with a later `}` (anything after the
brace group is ignored).  `FIELD_PART_RE` requires a non-empty name of
non-`=` characters, so its leftmost match skips leading `=`s and fails —
failing the whole directive — when none exists; the optional value is the
maximal non-empty run of non-`,` characters after `=` (anything after is
ignored). -/
def parseSpanPart (sseg : List Char) :
    Option (Option (List Char) × Option FieldDirective) :=
  let (nseg, r) := spanP (fun c => !(c = '{' || c = ']')) sseg
  let nm : Option (List Char) := if nseg = [] then none else some nseg
  match r with
  | '{' :: rest =>
    match splitChar '}' rest with
    | none => some (nm, none)
    | some (content, _) =>
      -- FIELD_PART_RE over the brace capture
      let (_, r0) := spanP (fun c => c = '=') content
      match r0 with
      | [] => none
      | _ :: _ =>
        let (fname, r1) := spanP (fun c => !(c = '=')) r0
        match r1 with
        | '=' :: vrest =>
          let (vseg, _) := spanP (fun c => !(c = ',')) vrest
          if vseg = [] then some (nm, some { name := fname, value := none })
          else some (nm, some { name := fname, value := some vseg })
        | _ => some (nm, some { name := fname, value := none })
  | _ => some (nm, none)

/-- The optional `\[(?P<span>[^\]]*)\]` group of `DIRECTIVE_RE`: when the
remainder starts with `[`, its body runs to the first `]` (no `]` at all
fails the whole anchored match); otherwise the group is skipped. -/
def bracketPart (r1 : List Char) : Option (Option (List Char) × List Char) :=
  match r1 with
  | '[' :: rest =>
    match splitChar ']' rest with
    | none => none
    | some (content, after) => some (some content, after)
  | _ => some (none, r1)

/-- The optional `=level` group of `DIRECTIVE_RE` followed by the `$`
anchor: the remainder must be empty, or `=`, or `=` followed by exactly one
recognized level token; the returned capture is the token, when present. -/
def levelCapture (r2 : List Char) : Option (Option (List Char)) :=
  match r2 with
  | [] => some none
  | '=' :: rest =>
    if rest = [] then some none
    else if (levelTok rest).isSome then some (some rest) else none
  | _ => none

/-- The `level` post-processing of `Directive::from_str` (filter.rs:197-202):
parse the capture as a `LevelFilter` (propagating failure, which the regex
rules out), defaulting an absent capture to `TRACE`. -/
def mkLevel : Option (List Char) → Option LevelFilter
  | none => some LevelFilter.trace
  | some tok => levelTok tok

/-- `Directive::from_str` (filter.rs:115-211).  `DIRECTIVE_RE` is anchored:
a (possibly empty) run of target characters, an optional `[…]` group, and an
optional `=level` group followed by `$`; anything else fails to match.  (The
`global_level` lookup at filter.rs:157-167 queries a capture group that does
not exist in `DIRECTIVE_RE`, so it never fires and is omitted.) -/
def Directive.fromStr (s : List Char) : Option Directive :=
  let (tseg, r1) := spanP isTargetChar s
  match bracketPart r1 with
  | none => none
  | some (sseg, r2) =>
    match levelCapture r2 with
    | none => none
    | some lvlCap =>
      match mkLevel lvlCap with
      | none => none
      | some level =>
        match sseg with
        | none =>
          some { target := mkTarget tseg, span := none, field := none, level := level }
        | some sseg' =>
          match parseSpanPart sseg' with
          | none => none
          | some (sp, fd) =>
            some { target := mkTarget tseg, span := sp, field := fd, level := level }

/-- `tracing_egui::filter::EventFilter`. -/
structure EventFilter where
  directives : List Directive
deriving DecidableEq

/-- The `map(parse).collect::<Result<_, _>>` of `EventFilter::from_str`:
parse every comma-separated piece, failing if any piece fails. -/
def parseDirectives : List (List Char) → Option (List Directive)
  | [] => some []
  | s :: rest =>
    match Directive.fromStr s with
    | none => none
    | some d =>
      match parseDirectives rest with
      | none => none
      | some ds => some (d :: ds)

/-- `<EventFilter as FromStr>::from_str` (filter.rs:102-113): empty input is
the empty filter; otherwise split on `,` and parse every directive. -/
def EventFilter.fromStr (s : List Char) : Option EventFilter :=
  if s = [] then some { directives := [] }
  else
    match parseDirectives (splitComma s) with
    | none => none
    | some ds => some { directives := ds }

/-- The part of `tracing::Metadata` the evaluator reads: `target()`,
`name()` and `level()`. -/
structure Meta where
  target : List Char
  name : List Char
  level : Level
deriving DecidableEq

/-- One archived span record as the evaluator reads it (its metadata and its
insertion-ordered fields). -/
structure SpanRec where
  meta : Meta
  fields : List (List Char × Archive.Field)

/-- One archived event as the evaluator reads it.  `spans` is the ancestor
chain `iter::successors(event.span(), |span| span.parent())`, innermost
first (the `Arc<Span>` parent links unfolded; parent links are set at
creation and never mutated, so the chain is finite and acyclic). -/
structure Event where
  meta : Meta
  fields : List (List Char × Archive.Field)
  spans : List SpanRec

/-- `Nat.toDigits 10` produces the decimal digits used by `{:?}` on
integers. -/
def natChars (n : Nat) : List Char := Nat.toDigits 10 n

/-- `{:?}` of `i64`. -/
def intChars (n : Int) : List Char :=
  if n < 0 then '-' :: natChars (-n).toNat else natChars n.toNat

/-- `char::escape_debug` as used by `{:?}` on `str` (the string-relevant
escapes: `\"`, `\\`, `\n`, `\r`, `\t`, and `\u{…}` (lowercase hex) for other
control characters; printable characters pass through). -/
def escChar (c : Char) : List Char :=
  if c = '"' then ['\\', '"']
  else if c = '\\' then ['\\', '\\']
  else if c = '\n' then ['\\', 'n']
  else if c = '\r' then ['\\', 'r']
  else if c = '\t' then ['\\', 't']
  else if c.toNat < 32 ∨ c.toNat = 127 then
    '\\' :: 'u' :: '{' :: Nat.toDigits 16 c.toNat ++ ['}']
  else [c]

/-- `format!("{:?}", field)` on one leaf as presented by `with_debug`
(archive.rs:148-154): integers and bools debug-format as themselves, `Str`
is passed as `&&str` (so it debug-formats quoted and escaped), and
`Error`/`Debug` are passed as `format_args!("{}", value)` (so their captured
text appears verbatim).  A `Multiple` is never presented as a leaf: on
nested `Multiple`s `with_debug` does not terminate (see `wdRun`), so this
arm is unreachable on invariant-respecting values. -/
def renderLeaf : Archive.Field → List Char
  | .I64 v => intChars v
  | .U64 v => natChars v
  | .Bool' v => if v then strL "true" else strL "false"
  | .Str v => '"' :: ((v.map escChar).flatten ++ ['"'])
  | .Error v => v
  | .Debug v => v
  | .Multiple _ => []

/-- The leaves `with_debug` yields for an invariant-respecting field:
the children of a `Multiple`, else the field itself (`Archive.leavesOf`). -/
def fieldLeaves (v : Archive.Field) : List Archive.Field := Archive.leavesOf v

/-- The target clause of `EventFilter::includes` (filter.rs:41-47): the
event's metadata target contains the directive target as a substring. -/
def targetClause (d : Directive) (e : Event) : Bool :=
  match d.target with
  | none => true
  | some t => containsSub t e.meta.target

/-- The span clause (filter.rs:50-59): some span in the ancestor chain has a
name containing the directive span text as a substring. -/
def spanClause (d : Directive) (e : Event) : Bool :=
  match d.span with
  | none => true
  | some sp => e.spans.any fun s => containsSub sp s.meta.name

/-- The value filter inside the field clause (filter.rs:73-85): with a value
directive, some leaf's debug rendering contains the directive value as a
substring; without one, accept. -/
def valueMatch (vd : Option (List Char)) (v : Archive.Field) : Bool :=
  match vd with
  | none => true
  | some tv => (fieldLeaves v).any fun leaf => containsSub tv (renderLeaf leaf)

/-- The field clause (filter.rs:61-87): some field on the event or on any
ancestor span has a name containing the directive field name as a substring
and passes the value filter. -/
def fieldClause (d : Directive) (e : Event) : Bool :=
  match d.field with
  | none => true
  | some fd =>
    (e.fields ++ (e.spans.map SpanRec.fields).flatten).any fun p =>
      containsSub fd.name p.1 && valueMatch fd.value p.2

/-- `this_directive_applies` (filter.rs:39-87): the conjunction of the
present clauses. -/
def applies (d : Directive) (e : Event) : Bool :=
  targetClause d e && spanClause d e && fieldClause d e

/-- `EventFilter::includes` (filter.rs:31-95): an empty directive set admits
everything; otherwise every applying directive overwrites the decision with
`event.level <= directive.level`, starting from rejection. -/
def EventFilter.includes (ef : EventFilter) (e : Event) : Bool :=
  if ef.directives.isEmpty then true
  else
    ef.directives.foldl
      (fun included d =>
        if applies d e then e.meta.level.leFilter d.level else included)
      false

/-- Modelled from the spec: the admission rule of §4.G read literally — the
decision of the *last* directive in list order whose present clauses all
apply, rejection when none applies. -/
def lastApplied (e : Event) : List Directive → Option Directive
  | [] => none
  | d :: ds =>
    match lastApplied e ds with
    | some d' => some d'
    | none => if applies d e then some d else none

/-- Replace only the event's metadata target (used to state that a directive
without a target clause is insensitive to it). -/
def Event.withTarget (e : Event) (t : List Char) : Event :=
  { e with meta := { e.meta with target := t } }

/-- All field values on the event and its ancestor chain satisfy the
`Multiple` invariant (under which `with_debug` — and hence the value
filter — terminates; cf. the C10 divergence). -/
def Event.wfB (e : Event) : Bool :=
  e.fields.all (fun p => p.2.wfB) &&
    e.spans.all fun s => s.fields.all fun p => p.2.wfB

end Egui

/-! ## Helper lemmas -/

theorem spanP_append_eq (p : Char → Bool) : ∀ s : List Char, (spanP p s).1 ++ (spanP p s).2 = s := by
  intro s
  induction s with
  | nil => rfl
  | cons c rest ih =>
    by_cases hp : p c = true
    · simp only [spanP, hp, if_pos]
      cases hsp : spanP p rest with
    | mk a b =>
      rw [hsp] at ih
      simpa using ih
    · simp [spanP, hp]

theorem spanP_all (p : Char → Bool) : ∀ s : List Char, (∀ c ∈ s, p c = true) → spanP p s = (s, []) := by
  intro s
  induction s with
  | nil => intro _; rfl
  | cons c rest ih =>
    intro h
    have hc : p c = true := h c (by simp)
    have := ih fun d hd => h d (by simp [hd])
    simp [spanP, hc, this]

theorem spanP_append_stop (p : Char → Bool) (xs : List Char) (c : Char) (r : List Char)
    (hxs : ∀ d ∈ xs, p d = true) (hc : p c = false) :
    spanP p (xs ++ c :: r) = (xs, c :: r) := by
  induction xs with
  | nil => simp [spanP, hc]
  | cons x xt ih =>
    have hx : p x = true := hxs x (by simp)
    have := ih fun d hd => hxs d (by simp [hd])
    simp [spanP, hx, this]

theorem splitChar_eq (t : Char) : ∀ s a b, splitChar t s = some (a, b) → s = a ++ t :: b := by
  intro s
  induction s with
  | nil => intro a b h; simp [splitChar] at h
  | cons c rest ih =>
    intro a b h
    by_cases hc : c = t
    · simp [splitChar, hc] at h
      obtain ⟨rfl, rfl⟩ := h
      simp [hc]
    · simp only [splitChar, if_neg hc, Option.map_eq_some'] at h
      obtain ⟨⟨a', b'⟩, hsp, hab⟩ := h
      cases hab
      simp [ih a' b' hsp]

theorem wdRun_all_leaves : ∀ (xs : List Archive.Field), (∀ x ∈ xs, x.isMult = false) →
    Archive.wdRun (xs.length + 1) xs [] = some xs := by
  intro xs
  induction xs with
  | nil => intro _; rfl
  | cons x t ih =>
    intro h
    have hx : x.isMult = false := h x (by simp)
    have ht := ih fun d hd => h d (by simp [hd])
    cases x with
    | Multiple values => simp [Archive.Field.isMult] at hx
    | I64 v => simp [Archive.wdRun, ht]
    | U64 v => simp [Archive.wdRun, ht]
    | Bool' v => simp [Archive.wdRun, ht]
    | Str v => simp [Archive.wdRun, ht]
    | Error v => simp [Archive.wdRun, ht]
    | Debug v => simp [Archive.wdRun, ht]

/-- **C8.** For every field value satisfying the `Multiple` invariants
(non-empty, no directly nested `Multiple`), the iterator returned by
`Field::with_debug` invokes the visitor exactly once per contained leaf —
each child of a `Multiple`, else the field itself — in recorded order, and
then terminates (modelled by `wdRun` reaching `some` with exactly the list
of leaves, under sufficient fuel for its internal recursion). -/
theorem c8_with_debug_visits_leaves (f : Archive.Field) (hwf : f.wfB = true) :
    ∃ n, Archive.wdRun n [f] [] = some (Archive.leavesOf f) := by
  cases f with
  | Multiple xs =>
    refine ⟨xs.length + 2, ?_⟩
    simp only [Archive.Field.wfB, Bool.and_eq_true, Bool.not_eq_true', List.all_eq_true] at hwf
    obtain ⟨-, hall⟩ := hwf
    have : Archive.wdRun (xs.length + 1 + 1) [Archive.Field.Multiple xs] [] =
        Archive.wdRun (xs.length + 1) xs [] := by
      simp [Archive.wdRun]
    rw [show xs.length + 2 = xs.length + 1 + 1 from rfl, this,
      wdRun_all_leaves xs fun x hx => by simpa using hall x hx]
    rfl
  | I64 v => exact ⟨2, rfl⟩
  | U64 v => exact ⟨2, rfl⟩
  | Bool' v => exact ⟨2, rfl⟩
  | Str v => exact ⟨2, rfl⟩
  | Error v => exact ⟨2, rfl⟩
  | Debug v => exact ⟨2, rfl⟩

/-- Witness for C8 at a concrete two-leaf `Multiple`. -/
theorem c8_with_debug_visits_leaves_witness :
    ∃ n, Archive.wdRun n [Archive.Field.Multiple [Archive.Field.I64 1, Archive.Field.Bool' true]] []
      = some (Archive.leavesOf (Archive.Field.Multiple [Archive.Field.I64 1, Archive.Field.Bool' true])) :=
  c8_with_debug_visits_leaves _ (by decide)

/-- **C10.** With the no-nested-`Multiple` invariant violated — here the
concrete `Multiple([Multiple([I64 1]), I64 2])`, whose inner `Multiple` sits
in a non-final position — the `with_debug` iterator never terminates: once
the inner `Multiple` heads the current slice, `next` pushes its values and
re-enters itself without ever advancing past it, so no amount of fuel makes
the modelled iteration produce a result. -/
theorem c10_with_debug_nested_multiple_diverges :
    ∀ n : Nat,
      Archive.wdRun n
        [Archive.Field.Multiple [Archive.Field.Multiple [Archive.Field.I64 1], Archive.Field.I64 2]] []
        = none := by
  have stuck : ∀ n st,
      Archive.wdRun n (Archive.Field.Multiple [Archive.Field.I64 1] :: [Archive.Field.I64 2]) st
        = none := by
    intro n
    induction n with
    | zero => intro st; rfl
    | succ n ih => intro st; simpa [Archive.wdRun] using ih _
  intro n
  cases n with
  | zero => rfl
  | succ n => simpa [Archive.wdRun] using stuck n []

theorem runA_inv : ∀ (ops : List Archive.AOp) (s : Archive.AState),
    (ops.foldl Archive.stepA s).log ++ (ops.foldl Archive.stepA s).queue
      = s.log ++ s.queue ++ Archive.pushedA ops := by
  intro ops
  induction ops with
  | nil => intro s; simp [Archive.pushedA]
  | cons op ops ih =>
    intro s
    cases op with
    | publish e =>
      simp only [List.foldl_cons, ih]
      simp [Archive.stepA, Archive.pushedA]
    | snapshot =>
      simp only [List.foldl_cons, ih]
      simp [Archive.stepA, Archive.pushedA]

/-- **C1.** For every history of publishes (`on_event` pushing to the ingest
queue, in queue FIFO linearization order) and snapshots, a `with_events`
call issued after the history drains the queue (the exit state's queue is
empty) and hands its callback exactly the list of all events published so
far, in queue FIFO publication order; hence an event published exactly once
appears exactly once in the callback vector of that call — and of every
later call, since the quantification is over arbitrary histories — never
duplicated, never dropped. -/
theorem c1_with_events_snapshot (ops : List Archive.AOp) (e : Nat) :
    (Archive.withEvents ops).1 = Archive.pushedA ops ∧
    (Archive.withEvents ops).2.queue = [] ∧
    ((Archive.pushedA ops).count e = 1 → ((Archive.withEvents ops).1).count e = 1) := by
  have hv : (Archive.withEvents ops).1 = Archive.pushedA ops := by
    have := runA_inv ops ⟨[], []⟩
    simpa [Archive.withEvents, Archive.runA] using this
  exact ⟨hv, rfl, fun h => by rw [hv]; exact h⟩

/-- Witness for C1: after `publish 5, snapshot, publish 7`, the next
`with_events` hands its callback `[5, 7]` and event 5 appears exactly once. -/
theorem c1_with_events_snapshot_witness :
    (Archive.withEvents [.publish 5, .snapshot, .publish 7]).1
        = Archive.pushedA [.publish 5, .snapshot, .publish 7] ∧
    (Archive.withEvents [.publish 5, .snapshot, .publish 7]).2.queue = [] ∧
    ((Archive.withEvents [.publish 5, .snapshot, .publish 7]).1).count 5 = 1 :=
  ⟨(c1_with_events_snapshot [.publish 5, .snapshot, .publish 7] 5).1,
    (c1_with_events_snapshot [.publish 5, .snapshot, .publish 7] 5).2.1,
    (c1_with_events_snapshot [.publish 5, .snapshot, .publish 7] 5).2.2 (by decide)⟩

theorem merge_of_not_mult (e v : Archive.Field) (h : e.isMult = false) :
    e.merge v = .Multiple [e, v] := by
  cases e <;> simp_all [Archive.Field.merge, Archive.Field.isMult]

theorem wfB_of_not_mult (v : Archive.Field) (h : v.isMult = false) : v.wfB = true := by
  cases v <;> simp_all [Archive.Field.wfB, Archive.Field.isMult]

theorem recordField_of_lookup_none (n : List Char) (v : Archive.Field) :
    ∀ m : List (List Char × Archive.Field), List.lookup n m = none →
      Archive.recordField m n v = m ++ [(n, v)] := by
  intro m
  induction m with
  | nil => intro _; rfl
  | cons p rest ih =>
    obtain ⟨k, e⟩ := p
    intro h
    rw [List.lookup] at h
    cases hbeq : n == k with
    | true => rw [hbeq] at h; simp at h
    | false =>
      rw [hbeq] at h
      have hk : ¬(k = n) := fun hkn => by simp [hkn] at hbeq
      simp [Archive.recordField, hk, ih h]

theorem lookup_append_of_none (n : List Char) (l : List (List Char × Archive.Field)) :
    ∀ m, List.lookup n m = none → List.lookup n (m ++ l) = List.lookup n l := by
  intro m
  induction m with
  | nil => intro _; rfl
  | cons p rest ih =>
    obtain ⟨k, e⟩ := p
    intro h
    rw [List.lookup] at h
    cases hbeq : n == k with
    | true => rw [hbeq] at h; simp at h
    | false => rw [hbeq] at h; simpa [List.lookup, hbeq] using ih h

theorem count_zero_of_lookup_none (n : List Char) :
    ∀ m : List (List Char × Archive.Field), List.lookup n m = none →
      (m.map Prod.fst).count n = 0 := by
  intro m
  induction m with
  | nil => intro _; rfl
  | cons p rest ih =>
    obtain ⟨k, e⟩ := p
    intro h
    rw [List.lookup] at h
    cases hbeq : n == k with
    | true => rw [hbeq] at h; simp at h
    | false =>
      rw [hbeq] at h
      have : ¬(k = n) := fun hkn => by simp [hkn] at hbeq
      simp [List.count_cons, this, ih h]

theorem recordField_lookup_some (n : List Char) (v e : Archive.Field) :
    ∀ m, List.lookup n m = some e →
      List.lookup n (Archive.recordField m n v) = some (e.merge v) ∧
      (Archive.recordField m n v).map Prod.fst = m.map Prod.fst := by
  intro m
  induction m with
  | nil => intro h; simp [List.lookup] at h
  | cons p rest ih =>
    obtain ⟨k, f⟩ := p
    intro h
    rw [List.lookup] at h
    cases hbeq : n == k with
    | true =>
      rw [hbeq] at h
      have hk : n = k := by simpa using hbeq
      subst hk
      obtain rfl : f = e := by simpa using h
      constructor
      · simp [Archive.recordField, List.lookup]
      · simp [Archive.recordField]
    | false =>
      rw [hbeq] at h
      have hk : ¬(k = n) := fun hkn => by simp [hkn] at hbeq
      obtain ⟨h1, h2⟩ := ih h
      constructor
      · simpa [Archive.recordField, hk, List.lookup, hbeq] using h1
      · simp [Archive.recordField, hk, h2]

theorem foldl_record_multiple (n : List Char) :
    ∀ (ws : List Archive.Field) (m : List (List Char × Archive.Field)) (xs : List Archive.Field),
      List.lookup n m = some (.Multiple xs) →
      List.lookup n (ws.foldl (fun acc v => Archive.recordField acc n v) m)
          = some (.Multiple (xs ++ ws)) ∧
      (ws.foldl (fun acc v => Archive.recordField acc n v) m).map Prod.fst = m.map Prod.fst := by
  intro ws
  induction ws with
  | nil => intro m xs h; simpa using h
  | cons w ws ih =>
    intro m xs h
    obtain ⟨h1, h2⟩ := recordField_lookup_some n w (Archive.Field.Multiple xs) m h
    rw [Archive.Field.merge] at h1
    obtain ⟨h3, h4⟩ := ih (Archive.recordField m n w) (xs ++ [w]) h1
    refine ⟨?_, by simpa [h2] using h4⟩
    simpa [List.append_assoc] using h3

/-- **C2.** Starting from a field map without an entry for name `n`
(`Event::record_field` and `Span::record_field` share this body verbatim),
recording the non-`Multiple` values `v₁ :: rest` under `n` leaves a single
entry for `n`: `v₁` itself when it is the only recording, and
`Multiple([v₁, …, vₖ])` — flat and non-empty, hence satisfying the
`Multiple` invariants — when there are at least two. -/
theorem c2_record_field_flattens (m : List (List Char × Archive.Field)) (n : List Char)
    (v₁ : Archive.Field) (rest : List Archive.Field)
    (hm : List.lookup n m = none)
    (hwf : ((v₁ :: rest).all fun v => !v.isMult) = true) :
    List.lookup n ((v₁ :: rest).foldl (fun acc v => Archive.recordField acc n v) m)
        = some (if rest.isEmpty then v₁ else .Multiple (v₁ :: rest)) ∧
    (((v₁ :: rest).foldl (fun acc v => Archive.recordField acc n v) m).map Prod.fst).count n = 1 ∧
    Archive.Field.wfB (if rest.isEmpty then v₁ else .Multiple (v₁ :: rest)) = true := by
  simp only [List.all_cons, Bool.and_eq_true, Bool.not_eq_true', List.all_eq_true] at hwf
  obtain ⟨hv₁, hrest⟩ := hwf
  have hrec1 : Archive.recordField m n v₁ = m ++ [(n, v₁)] :=
    recordField_of_lookup_none n v₁ m hm
  have hlk1 : List.lookup n (Archive.recordField m n v₁) = some v₁ := by
    rw [hrec1, lookup_append_of_none n _ m hm]
    simp [List.lookup]
  have hfst1 : (Archive.recordField m n v₁).map Prod.fst = m.map Prod.fst ++ [n] := by
    rw [hrec1]; simp
  have hcount1 : ((Archive.recordField m n v₁).map Prod.fst).count n = 1 := by
    rw [hfst1]
    simp [count_zero_of_lookup_none n m hm]
  cases rest with
  | nil =>
    refine ⟨by simpa using hlk1, by simpa using hcount1, ?_⟩
    simpa using wfB_of_not_mult v₁ hv₁
  | cons v₂ rest' =>
    have hv₂ : v₂.isMult = false := by simpa using hrest v₂ (by simp)
    obtain ⟨h1, h2⟩ := recordField_lookup_some n v₂ v₁ (Archive.recordField m n v₁) hlk1
    rw [merge_of_not_mult v₁ v₂ hv₁] at h1
    obtain ⟨h3, h4⟩ :=
      foldl_record_multiple n rest' (Archive.recordField (Archive.recordField m n v₁) n v₂)
        [v₁, v₂] h1
    have hemp : ((v₂ :: rest').isEmpty) = false := rfl
    refine ⟨?_, ?_, ?_⟩
    · simpa [List.foldl_cons, hemp] using h3
    · simp only [List.foldl_cons]
      rw [h4, h2]
      exact hcount1
    · have hall : ∀ x ∈ v₁ :: v₂ :: rest', x.isMult = false := by
        intro x hx
        rcases List.mem_cons.mp hx with rfl | hx'
        · exact hv₁
        · exact hrest x hx'
      simp only [hemp, Bool.false_eq_true, if_false, Archive.Field.wfB, List.isEmpty_cons,
        Bool.not_false, Bool.true_and, List.all_eq_true]
      intro x hx
      simp [hall x hx]

/-- Witness for C2: recording `I64 1` then `I64 2` under `"x"` in an empty
map yields the single flat entry `Multiple([I64 1, I64 2])`. -/
theorem c2_record_field_flattens_witness :
    List.lookup (strL "x")
        (([Archive.Field.I64 1, Archive.Field.I64 2]).foldl
          (fun acc v => Archive.recordField acc (strL "x") v) [])
        = some (if ([Archive.Field.I64 2] : List Archive.Field).isEmpty then Archive.Field.I64 1
          else .Multiple [Archive.Field.I64 1, Archive.Field.I64 2]) ∧
    ((([Archive.Field.I64 1, Archive.Field.I64 2]).foldl
          (fun acc v => Archive.recordField acc (strL "x") v) []).map Prod.fst).count (strL "x")
        = 1 ∧
    Archive.Field.wfB (if ([Archive.Field.I64 2] : List Archive.Field).isEmpty then Archive.Field.I64 1
          else .Multiple [Archive.Field.I64 1, Archive.Field.I64 2]) = true :=
  c2_record_field_flattens [] (strL "x") (Archive.Field.I64 1) [Archive.Field.I64 2] rfl (by decide)

theorem Filters_next_error_clears (s : List Char) (e : ParseError) (s' : List Char)
    (h : Lazy.Filters.next s = some (.error e, s')) : s' = [] := by
  by_cases hs : s = []
  · simp [Lazy.Filters.next, hs] at h
  by_cases hr : (s.contains '"' || s.contains '/') = true
  · simp only [Lazy.Filters.next, if_neg hs, if_pos hr] at h
    simp only [Option.some.injEq, Prod.mk.injEq] at h
    exact h.2.symm
  · simp only [Lazy.Filters.next, if_neg hs, if_neg hr] at h
    cases hc : Lazy.Filters.nextCore s with
    | ok p => obtain ⟨f, st⟩ := p; rw [hc] at h; simp at h
    | error e2 =>
      rw [hc] at h
      simp only [Option.some.injEq, Prod.mk.injEq] at h
      exact h.2.symm

theorem SpanFilters_next_error_clears (s : List Char) (e : ParseError) (s' : List Char)
    (h : Lazy.SpanFilters.next s = some (.error e, s')) : s' = [] := by
  by_cases hs : s = []
  · simp [Lazy.SpanFilters.next, hs] at h
  by_cases hr : (s.contains '"' || s.contains '/') = true
  · simp only [Lazy.SpanFilters.next, if_neg hs, if_pos hr] at h
    simp only [Option.some.injEq, Prod.mk.injEq] at h
    exact h.2.symm
  · simp only [Lazy.SpanFilters.next, if_neg hs, if_neg hr] at h
    cases hc : Lazy.SpanFilters.nextCore s with
    | ok p => obtain ⟨f, st⟩ := p; rw [hc] at h; simp at h
    | error e2 =>
      rw [hc] at h
      simp only [Option.some.injEq, Prod.mk.injEq] at h
      exact h.2.symm

theorem FieldFilters_next_error_clears (s : List Char) (e : ParseError) (s' : List Char)
    (h : Lazy.FieldFilters.next s = some (.error e, s')) : s' = [] := by
  by_cases hs : s = []
  · simp [Lazy.FieldFilters.next, hs] at h
  by_cases hr : (s.contains '"' || s.contains '/') = true
  · simp only [Lazy.FieldFilters.next, if_neg hs, if_pos hr] at h
    simp only [Option.some.injEq, Prod.mk.injEq] at h
    exact h.2.symm
  · simp only [Lazy.FieldFilters.next, if_neg hs, if_neg hr] at h
    cases hc : Lazy.FieldFilters.nextCore s with
    | ok p => obtain ⟨f, st⟩ := p; rw [hc] at h; simp at h
    | error e2 =>
      rw [hc] at h
      simp only [Option.some.injEq, Prod.mk.injEq] at h
      exact h.2.symm

/-- **C6.** For each of the three parser-iterators, whenever a `next` call
yields `Some(Err(_))` — `BadSyntax` or `ReservedSyntax` alike — the
iterator's remaining input has been cleared (every error path goes through
`err`, which sets `directives` to the empty string), so every subsequent
`next` call returns `None`. -/
theorem c6_error_latch (s : List Char) (e : ParseError) (s' : List Char) :
    (Lazy.Filters.next s = some (.error e, s') → s' = [] ∧ Lazy.Filters.next s' = none) ∧
    (Lazy.SpanFilters.next s = some (.error e, s') → s' = [] ∧ Lazy.SpanFilters.next s' = none) ∧
    (Lazy.FieldFilters.next s = some (.error e, s') → s' = [] ∧ Lazy.FieldFilters.next s' = none) := by
  refine ⟨fun h => ?_, fun h => ?_, fun h => ?_⟩
  · obtain rfl := Filters_next_error_clears s e s' h
    exact ⟨rfl, rfl⟩
  · obtain rfl := SpanFilters_next_error_clears s e s' h
    exact ⟨rfl, rfl⟩
  · obtain rfl := FieldFilters_next_error_clears s e s' h
    exact ⟨rfl, rfl⟩

/-- Witness for C6 at concrete erroring inputs for all three iterators
(`"]"`, `"="`, `"["` are each bad syntax at the respective level). -/
theorem c6_error_latch_witness :
    (([] : List Char) = [] ∧ Lazy.Filters.next [] = none) ∧
    (([] : List Char) = [] ∧ Lazy.SpanFilters.next [] = none) ∧
    (([] : List Char) = [] ∧ Lazy.FieldFilters.next [] = none) :=
  ⟨(c6_error_latch (strL "]") .BadSyntax []).1 rfl,
   (c6_error_latch (strL "=") .BadSyntax []).2.1 rfl,
   (c6_error_latch (strL "[") .BadSyntax []).2.2 rfl⟩

/-- **C5.** For every input containing the reserved byte `"` or `/`
anywhere, pulling from the parser at any of the three levels yields
`Err(ReservedSyntax)` (with the remaining input cleared), and the eager
`eager::filters` of such an input returns `Err(ReservedSyntax)`. -/
theorem c5_reserved_syntax (s : List Char)
    (h : (s.contains '"' || s.contains '/') = true) :
    Lazy.Filters.next s = some (.error .ReservedSyntax, []) ∧
    Lazy.SpanFilters.next s = some (.error .ReservedSyntax, []) ∧
    Lazy.FieldFilters.next s = some (.error .ReservedSyntax, []) ∧
    Eager.filters s = some (.error .ReservedSyntax) := by
  have hs : s ≠ [] := by
    intro hnil
    subst hnil
    simp [List.contains] at h
  have hnext : Lazy.Filters.next s = some (.error .ReservedSyntax, []) := by
    unfold Lazy.Filters.next
    rw [if_neg hs, if_pos h]
  refine ⟨hnext, ?_, ?_, ?_⟩
  · unfold Lazy.SpanFilters.next
    rw [if_neg hs, if_pos h]
  · unfold Lazy.FieldFilters.next
    rw [if_neg hs, if_pos h]
  · unfold Eager.filters
    simp [Eager.collectFilters, hnext]

/-- Witness for C5 at the concrete input `"a/b"`. -/
theorem c5_reserved_syntax_witness :
    Lazy.Filters.next (strL "a/b") = some (.error .ReservedSyntax, []) ∧
    Lazy.SpanFilters.next (strL "a/b") = some (.error .ReservedSyntax, []) ∧
    Lazy.FieldFilters.next (strL "a/b") = some (.error .ReservedSyntax, []) ∧
    Eager.filters (strL "a/b") = some (.error .ReservedSyntax) :=
  c5_reserved_syntax (strL "a/b") (by decide)

theorem includes_foldl_lastApplied (e : Egui.Event) :
    ∀ (ds : List Egui.Directive) (acc : Bool),
      ds.foldl (fun included d =>
          if Egui.applies d e then e.meta.level.leFilter d.level else included) acc
        = match Egui.lastApplied e ds with
          | none => acc
          | some d => e.meta.level.leFilter d.level := by
  intro ds
  induction ds with
  | nil => intro acc; rfl
  | cons d ds ih =>
    intro acc
    rw [List.foldl_cons, ih]
    cases hl : Egui.lastApplied e ds with
    | some d' => simp [Egui.lastApplied, hl]
    | none =>
      cases ha : Egui.applies d e with
      | true => simp [Egui.lastApplied, hl, ha]
      | false => simp [Egui.lastApplied, hl, ha]

/-- **C4.** For every non-empty directive set and every (invariant-
respecting) event, `EventFilter::includes` returns exactly the decision
`event.level ≤ d.level` of the last directive `d`, in directive-list order,
whose present target, span and field clauses all apply to the event
(`Egui.lastApplied`, modelled from the spec's admission rule); when no
directive applies the event is rejected.  (The well-formedness hypothesis
restricts to events on which the source's field-value matching terminates;
cf. C10.) -/
theorem c4_last_applying_directive_wins (ef : Egui.EventFilter) (e : Egui.Event)
    (hne : ef.directives ≠ []) (hwf : e.wfB = true) :
    ef.includes e = match Egui.lastApplied e ef.directives with
      | none => false
      | some d => e.meta.level.leFilter d.level := by
  have hemp : ef.directives.isEmpty = false := by
    cases hd : ef.directives with
    | nil => exact absurd hd hne
    | cons a l => rfl
  unfold Egui.EventFilter.includes
  rw [hemp]
  simp only [Bool.false_eq_true, if_false]
  exact includes_foldl_lastApplied e ef.directives false

/-- Witness for C4: two directives, the later applying one overwrites. -/
theorem c4_last_applying_directive_wins_witness :
    Egui.EventFilter.includes
        ⟨[{ target := some (strL "zzz"), span := none, field := none, level := Egui.LevelFilter.trace },
          { target := some (strL "app"), span := none, field := none, level := Egui.LevelFilter.info }]⟩
        ⟨⟨strL "my_app", strL "evt", Egui.Level.warn⟩, [], []⟩
      = match Egui.lastApplied ⟨⟨strL "my_app", strL "evt", Egui.Level.warn⟩, [], []⟩
          [{ target := some (strL "zzz"), span := none, field := none, level := Egui.LevelFilter.trace },
           { target := some (strL "app"), span := none, field := none, level := Egui.LevelFilter.info }] with
        | none => false
        | some d => (Egui.Level.warn).leFilter d.level :=
  c4_last_applying_directive_wins
    ⟨[{ target := some (strL "zzz"), span := none, field := none, level := Egui.LevelFilter.trace },
      { target := some (strL "app"), span := none, field := none, level := Egui.LevelFilter.info }]⟩
    ⟨⟨strL "my_app", strL "evt", Egui.Level.warn⟩, [], []⟩ (by decide) (by decide)

theorem eqIC_map_lowerA : ∀ t n : List Char, eqIC t n = true → t.map lowerA = n.map lowerA := by
  intro t
  induction t with
  | nil =>
    intro n h
    cases n with
    | nil => rfl
    | cons b bs => simp [eqIC] at h
  | cons a as ih =>
    intro n h
    cases n with
    | nil => simp [eqIC] at h
    | cons b bs =>
      simp only [eqIC, Bool.and_eq_true, beq_iff_eq] at h
      simp [h.1, ih bs h.2]

theorem isDig_lowerA (c : Char) (h : isDig c = true) : lowerA c = c := by
  unfold isDig at h
  simp only [Bool.and_eq_true, decide_eq_true_eq] at h
  unfold lowerA
  rw [if_neg (by omega)]

theorem head_not_dig (t : List Char) (c : Char) (cs : List Char)
    (hm : t.map lowerA = c :: cs) (hc : isDig c = false) : t.all isDig = false := by
  cases t with
  | nil => simp at hm
  | cons a as =>
    simp only [List.map_cons, List.cons.injEq] at hm
    cases hd : (a :: as).all isDig with
    | false => rfl
    | true =>
      exfalso
      have ha : isDig a = true := by
        simp only [List.all_cons, Bool.and_eq_true] at hd
        exact hd.1
      have hac : a = c := by rw [← hm.1, isDig_lowerA a ha]
      rw [hac] at ha
      simp [ha] at hc

theorem eqIC_unique (t n₁ n₂ : List Char) (h₁ : eqIC t n₁ = true) (h₂ : eqIC t n₂ = true) :
    n₁.map lowerA = n₂.map lowerA := by
  rw [← eqIC_map_lowerA t n₁ h₁, eqIC_map_lowerA t n₂ h₂]

theorem no_comma_of_eqIC (t n : List Char) (h : eqIC t n = true)
    (hn : ',' ∉ n.map lowerA) : ',' ∉ t := by
  intro hm
  apply hn
  rw [← eqIC_map_lowerA t n h]
  exact List.mem_map.mpr ⟨',', hm, by decide⟩

theorem levelTok_no_comma (lvl : List Char) (lf : Egui.LevelFilter)
    (h : Egui.levelTok lvl = some lf) : ',' ∉ lvl := by
  rw [Egui.levelTok] at h
  by_cases h0 : lvl = ['0']
  · subst h0; decide
  rw [if_neg h0] at h
  by_cases h1 : lvl = ['1']
  · subst h1; decide
  rw [if_neg h1] at h
  by_cases h2 : lvl = ['2']
  · subst h2; decide
  rw [if_neg h2] at h
  by_cases h3 : lvl = ['3']
  · subst h3; decide
  rw [if_neg h3] at h
  by_cases h4 : lvl = ['4']
  · subst h4; decide
  rw [if_neg h4] at h
  by_cases h5 : lvl = ['5']
  · subst h5; decide
  rw [if_neg h5] at h
  by_cases h6 : eqIC lvl (strL "off") = true
  · exact no_comma_of_eqIC lvl _ h6 (by decide)
  rw [if_neg h6] at h
  by_cases h7 : eqIC lvl (strL "error") = true
  · exact no_comma_of_eqIC lvl _ h7 (by decide)
  rw [if_neg h7] at h
  by_cases h8 : eqIC lvl (strL "warn") = true
  · exact no_comma_of_eqIC lvl _ h8 (by decide)
  rw [if_neg h8] at h
  by_cases h9 : eqIC lvl (strL "info") = true
  · exact no_comma_of_eqIC lvl _ h9 (by decide)
  rw [if_neg h9] at h
  by_cases h10 : eqIC lvl (strL "debug") = true
  · exact no_comma_of_eqIC lvl _ h10 (by decide)
  rw [if_neg h10] at h
  by_cases h11 : eqIC lvl (strL "trace") = true
  · exact no_comma_of_eqIC lvl _ h11 (by decide)
  rw [if_neg h11] at h
  cases h

theorem levelName_levelOfTok (t : List Char) (h : Egui.isLevelName t = true) :
    (Egui.levelOfTok t).isSome = true := by
  unfold Egui.isLevelName at h
  simp only [Bool.or_eq_true] at h
  have hdig : t.all isDig = false := by
    rcases h with (((h | h) | h) | h) | h
    · exact head_not_dig t 'e' (strL "rror")
        (by rw [eqIC_map_lowerA t _ h]; decide) (by decide)
    · exact head_not_dig t 'w' (strL "arn")
        (by rw [eqIC_map_lowerA t _ h]; decide) (by decide)
    · exact head_not_dig t 'i' (strL "nfo")
        (by rw [eqIC_map_lowerA t _ h]; decide) (by decide)
    · exact head_not_dig t 'd' (strL "ebug")
        (by rw [eqIC_map_lowerA t _ h]; decide) (by decide)
    · exact head_not_dig t 't' (strL "race")
        (by rw [eqIC_map_lowerA t _ h]; decide) (by decide)
  have hfalse : ∀ n₁ : List Char, eqIC t n₁ = true →
      ∀ n₂ : List Char, n₁.map lowerA ≠ n₂.map lowerA → eqIC t n₂ = false := by
    intro n₁ h₁ n₂ hne
    by_cases he : eqIC t n₂ = true
    · exact absurd (eqIC_unique t n₁ n₂ h₁ he) hne
    · simpa using he
  rw [Egui.levelOfTok]
  rw [show (decide (t ≠ []) && t.all isDig) = false from by rw [hdig]; simp]
  simp only [Bool.false_eq_true, if_false]
  rcases h with (((h | h) | h) | h) | h
  · rw [if_pos h]
    rfl
  · rw [if_neg (by simp [hfalse _ h (strL "error") (by decide)]), if_pos h]
    rfl
  · rw [if_neg (by simp [hfalse _ h (strL "error") (by decide)]),
      if_neg (by simp [hfalse _ h (strL "warn") (by decide)]), if_pos h]
    rfl
  · rw [if_neg (by simp [hfalse _ h (strL "error") (by decide)]),
      if_neg (by simp [hfalse _ h (strL "warn") (by decide)]),
      if_neg (by simp [hfalse _ h (strL "info") (by decide)]), if_pos h]
    rfl
  · rw [if_neg (by simp [hfalse _ h (strL "error") (by decide)]),
      if_neg (by simp [hfalse _ h (strL "warn") (by decide)]),
      if_neg (by simp [hfalse _ h (strL "info") (by decide)]),
      if_neg (by simp [hfalse _ h (strL "debug") (by decide)]), if_pos h]
    rfl

theorem splitComma_single : ∀ s : List Char, ',' ∉ s → splitComma s = [s] := by
  intro s
  induction s with
  | nil => intro _; rfl
  | cons c rest ih =>
    intro h
    have hc : ¬(c = ',') := fun hcc => h (by simp [hcc])
    have hr := ih fun hm => h (by simp [hm])
    simp [splitComma, hc, hr]

theorem directive_fromStr_target_level (tgt lvl : List Char) (lf : Egui.LevelFilter)
    (h2 : tgt.all Egui.isTargetChar = true) (h4 : Egui.levelTok lvl = some lf) :
    Egui.Directive.fromStr (tgt ++ '=' :: lvl)
      = some { target := Egui.mkTarget tgt, span := none, field := none, level := lf } := by
  have hsp : spanP Egui.isTargetChar (tgt ++ '=' :: lvl) = (tgt, '=' :: lvl) :=
    spanP_append_stop _ tgt '=' lvl (List.all_eq_true.mp h2) (by decide)
  have hlvl_ne : ¬(lvl = []) := by
    intro hnil
    subst hnil
    rw [show Egui.levelTok [] = none from by decide] at h4
    cases h4
  have hbr : Egui.bracketPart ('=' :: lvl) = some (none, '=' :: lvl) := rfl
  have hcap : Egui.levelCapture ('=' :: lvl) = some (some lvl) := by
    rw [Egui.levelCapture]
    rw [if_neg hlvl_ne, if_pos (by rw [h4]; rfl)]
  rw [Egui.Directive.fromStr, hsp]
  simp only [hbr, hcap, Egui.mkLevel, h4]

/-- **C3.** A directive string `target=level` (a non-empty target over the
target character class that is not itself a level token, `=`, and a level
token) parses into an `EventFilter` with the single directive
`{target, level}`; against it, `EventFilter::includes` admits an event iff
the event's metadata target contains the directive's target as a substring
and the event's severity is no less severe than the level
(`event.level ≤ level` in the ordinal order `error < warn < info < debug <
trace`). -/
theorem c3_single_target_level (tgt lvl : List Char) (lf : Egui.LevelFilter) (e : Egui.Event)
    (h1 : tgt ≠ []) (h2 : tgt.all Egui.isTargetChar = true)
    (h3 : Egui.levelOfTok tgt = none) (h4 : Egui.levelTok lvl = some lf) :
    Egui.EventFilter.fromStr (tgt ++ '=' :: lvl)
      = some ⟨[{ target := some tgt, span := none, field := none, level := lf }]⟩ ∧
    Egui.EventFilter.includes
        ⟨[{ target := some tgt, span := none, field := none, level := lf }]⟩ e
      = (containsSub tgt e.meta.target && e.meta.level.leFilter lf) := by
  have hmk : Egui.mkTarget tgt = some tgt := by
    rw [Egui.mkTarget, if_neg h1, if_neg (by rw [h3]; simp)]
  constructor
  · have hne : tgt ++ '=' :: lvl ≠ [] := by
      cases tgt with
      | nil => exact absurd rfl h1
      | cons a as => simp
    have hnc : ',' ∉ tgt ++ '=' :: lvl := by
      intro hm
      rcases List.mem_append.mp hm with hm | hm
      · exact absurd (List.all_eq_true.mp h2 _ hm) (by decide)
      · rcases List.mem_cons.mp hm with hm | hm
        · exact absurd hm (by decide)
        · exact levelTok_no_comma lvl lf h4 hm
    rw [Egui.EventFilter.fromStr, if_neg hne, splitComma_single _ hnc]
    simp [Egui.parseDirectives,
      directive_fromStr_target_level tgt lvl lf h2 h4, hmk]
  · rw [Egui.EventFilter.includes]
    cases hx : containsSub tgt e.meta.target with
    | true =>
      simp [Egui.applies, Egui.targetClause, Egui.spanClause, Egui.fieldClause, hx]
    | false =>
      simp [Egui.applies, Egui.targetClause, Egui.spanClause, Egui.fieldClause, hx]

/-- Witness for C3: `"net=Info"` against an event with target
`"tokio::net"` at level `debug` (rejected: `debug > info`). -/
theorem c3_single_target_level_witness :
    Egui.EventFilter.fromStr (strL "net" ++ '=' :: strL "Info")
      = some ⟨[{ target := some (strL "net"), span := none, field := none,
                 level := Egui.LevelFilter.info }]⟩ ∧
    Egui.EventFilter.includes
        ⟨[{ target := some (strL "net"), span := none, field := none,
            level := Egui.LevelFilter.info }]⟩
        ⟨⟨strL "tokio::net", strL "evt", Egui.Level.debug⟩, [], []⟩
      = (containsSub (strL "net") (strL "tokio::net")
          && (Egui.Level.debug).leFilter Egui.LevelFilter.info) :=
  c3_single_target_level (strL "net") (strL "Info") Egui.LevelFilter.info
    ⟨⟨strL "tokio::net", strL "evt", Egui.Level.debug⟩, [], []⟩
    (by decide) (by decide) (by decide) (by decide)

theorem includes_target_none_insensitive (d : Egui.Directive) (hd : d.target = none)
    (e : Egui.Event) (t : List Char) :
    Egui.EventFilter.includes ⟨[d]⟩ (e.withTarget t) = Egui.EventFilter.includes ⟨[d]⟩ e := by
  simp [Egui.EventFilter.includes, Egui.applies, Egui.targetClause, hd, Egui.spanClause,
    Egui.fieldClause, Egui.Event.withTarget]

theorem fromStr_target_of_spanP (tgt rest : List Char) (d : Egui.Directive)
    (hsp : spanP Egui.isTargetChar (tgt ++ rest) = (tgt, rest))
    (h5 : Egui.Directive.fromStr (tgt ++ rest) = some d) :
    d.target = Egui.mkTarget tgt := by
  simp only [Egui.Directive.fromStr, hsp] at h5
  cases hb : Egui.bracketPart rest with
  | none => simp only [hb] at h5; cases h5
  | some p =>
    obtain ⟨sseg, r2⟩ := p
    simp only [hb] at h5
    cases hc : Egui.levelCapture r2 with
    | none => simp only [hc] at h5; cases h5
    | some lvlCap =>
      simp only [hc] at h5
      cases hm : Egui.mkLevel lvlCap with
      | none => simp only [hm] at h5; cases h5
      | some level =>
        simp only [hm] at h5
        cases sseg with
        | none =>
          simp only [Option.some.injEq] at h5
          rw [← h5]
        | some sseg' =>
          cases hps : Egui.parseSpanPart sseg' with
          | none => simp only [hps] at h5; cases h5
          | some q =>
            obtain ⟨sp, fd⟩ := q
            simp only [hps, Option.some.injEq] at h5
            rw [← h5]

/-- **C9.** When the target segment of a directive string is a severity
level name in any ASCII casing (`error`, `INFO`, `trace`, …),
`Directive::from_str` discards it — the parsed directive stores
`target = None` — and the resulting directive's target condition holds for
every event: `EventFilter::includes` is unchanged under arbitrary
replacement of the event's metadata target. -/
theorem c9_level_name_target_discarded (tgt rest : List Char) (d : Egui.Directive)
    (h1 : tgt ≠ []) (h2 : tgt.all Egui.isTargetChar = true)
    (h3 : Egui.isLevelName tgt = true)
    (h4 : rest = [] ∨ ∃ c r, rest = c :: r ∧ Egui.isTargetChar c = false)
    (h5 : Egui.Directive.fromStr (tgt ++ rest) = some d) :
    d.target = none ∧
    ∀ (e : Egui.Event) (t : List Char),
      Egui.EventFilter.includes ⟨[d]⟩ (e.withTarget t)
        = Egui.EventFilter.includes ⟨[d]⟩ e := by
  have hsp : spanP Egui.isTargetChar (tgt ++ rest) = (tgt, rest) := by
    rcases h4 with rfl | ⟨c, r, rfl, hc⟩
    · rw [List.append_nil]
      exact spanP_all _ tgt (List.all_eq_true.mp h2)
    · exact spanP_append_stop _ tgt c r (List.all_eq_true.mp h2) hc
  have hnone : d.target = none := by
    rw [fromStr_target_of_spanP tgt rest d hsp h5, Egui.mkTarget, if_neg h1,
      if_pos (levelName_levelOfTok tgt h3)]
  exact ⟨hnone, fun e t => includes_target_none_insensitive d hnone e t⟩

/-- Witness for C9: `"error=info"` parses with no target clause, and the
admission of a concrete event is insensitive to its metadata target. -/
theorem c9_level_name_target_discarded_witness :
    ({ target := none, span := none, field := none,
       level := Egui.LevelFilter.info } : Egui.Directive).target = none ∧
    Egui.EventFilter.includes
        ⟨[{ target := none, span := none, field := none,
            level := Egui.LevelFilter.info }]⟩
        ((⟨⟨strL "app", strL "evt", Egui.Level.warn⟩, [], []⟩ : Egui.Event).withTarget
          (strL "other"))
      = Egui.EventFilter.includes
          ⟨[{ target := none, span := none, field := none,
              level := Egui.LevelFilter.info }]⟩
          ⟨⟨strL "app", strL "evt", Egui.Level.warn⟩, [], []⟩ :=
  ⟨(c9_level_name_target_discarded (strL "error") (strL "=info") _
      (by decide) (by decide) (by decide)
      (Or.inr ⟨'=', strL "info", by decide, by decide⟩) (by decide)).1,
   (c9_level_name_target_discarded (strL "error") (strL "=info") _
      (by decide) (by decide) (by decide)
      (Or.inr ⟨'=', strL "info", by decide, by decide⟩) (by decide)).2
     ⟨⟨strL "app", strL "evt", Egui.Level.warn⟩, [], []⟩ (strL "other")⟩

theorem Filters_target_ok (s t s1 : List Char)
    (h : Lazy.Filters.target s = .ok (t, s1)) : s = t ++ s1 := by
  have happ := spanP_append_eq (fun c => !isSyntaxChar c) s
  rw [Lazy.Filters.target] at h
  cases hsp : spanP (fun c => !isSyntaxChar c) s with
  | mk pre post =>
    rw [hsp] at h happ
    cases post with
    | nil =>
      simp only [Except.ok.injEq, Prod.mk.injEq] at h
      obtain ⟨rfl, rfl⟩ := h
      exact happ.symm
    | cons c rest =>
      by_cases hcc : (c = ']' || c = '{' || c = '}') = true
      · simp only [if_pos hcc] at h
        cases h
      · simp only [if_neg hcc, Except.ok.injEq, Prod.mk.injEq] at h
        obtain ⟨rfl, rfl⟩ := h
        exact happ.symm

theorem SpanFilters_name_ok (s t s1 : List Char)
    (h : Lazy.SpanFilters.name s = .ok (t, s1)) : s = t ++ s1 := by
  have happ := spanP_append_eq (fun c => !isSyntaxChar c) s
  rw [Lazy.SpanFilters.name] at h
  cases hsp : spanP (fun c => !isSyntaxChar c) s with
  | mk pre post =>
    rw [hsp] at h happ
    cases post with
    | nil =>
      simp only [Except.ok.injEq, Prod.mk.injEq] at h
      obtain ⟨rfl, rfl⟩ := h
      exact happ.symm
    | cons c rest =>
      by_cases hcc : (c = '{' || c = ',') = true
      · simp only [if_pos hcc, Except.ok.injEq, Prod.mk.injEq] at h
        obtain ⟨rfl, rfl⟩ := h
        exact happ.symm
      · simp only [if_neg hcc] at h
        cases h

theorem FieldFilters_name_ok (s t s1 : List Char)
    (h : Lazy.FieldFilters.name s = .ok (t, s1)) : s = t ++ s1 := by
  have happ := spanP_append_eq (fun c => !isSyntaxChar c) s
  rw [Lazy.FieldFilters.name] at h
  cases hsp : spanP (fun c => !isSyntaxChar c) s with
  | mk pre post =>
    rw [hsp] at h happ
    cases post with
    | nil =>
      simp only [Except.ok.injEq, Prod.mk.injEq] at h
      obtain ⟨rfl, rfl⟩ := h
      exact happ.symm
    | cons c rest =>
      by_cases hcc : (c = '=' || c = ',') = true
      · simp only [if_pos hcc, Except.ok.injEq, Prod.mk.injEq] at h
        obtain ⟨rfl, rfl⟩ := h
        exact happ.symm
      · simp only [if_neg hcc] at h
        cases h

theorem Filters_spanPart_ok (s : List Char) (sp : Option (List Char)) (s2 : List Char)
    (h : Lazy.Filters.spanPart s = .ok (sp, s2)) :
    (sp = none ∧ s = s2) ∨ ∃ c, sp = some c ∧ s = '[' :: c ++ ']' :: s2 := by
  cases s with
  | nil =>
    rw [Lazy.Filters.spanPart] at h
    simp only [Except.ok.injEq, Prod.mk.injEq] at h
    obtain ⟨rfl, rfl⟩ := h
    exact Or.inl ⟨rfl, rfl⟩
  | cons c rest =>
    rw [Lazy.Filters.spanPart] at h
    by_cases hc : c = '['
    · subst hc
      rw [if_pos rfl] at h
      cases hsc : splitChar ']' rest with
      | none => rw [hsc] at h; cases h
      | some p =>
        obtain ⟨content, after⟩ := p
        rw [hsc] at h
        simp only [Except.ok.injEq, Prod.mk.injEq] at h
        obtain ⟨rfl, rfl⟩ := h
        refine Or.inr ⟨content, rfl, ?_⟩
        have hre := splitChar_eq ']' rest content after hsc
        simp [hre]
    · rw [if_neg hc] at h
      simp only [Except.ok.injEq, Prod.mk.injEq] at h
      obtain ⟨rfl, rfl⟩ := h
      exact Or.inl ⟨rfl, rfl⟩

theorem SpanFilters_fieldsPart_ok (s : List Char) (fd : Option (List Char)) (s2 : List Char)
    (h : Lazy.SpanFilters.fieldsPart s = .ok (fd, s2)) :
    (fd = none ∧ s = s2) ∨ ∃ c, fd = some c ∧ s = '{' :: c ++ '}' :: s2 := by
  cases s with
  | nil =>
    rw [Lazy.SpanFilters.fieldsPart] at h
    simp only [Except.ok.injEq, Prod.mk.injEq] at h
    obtain ⟨rfl, rfl⟩ := h
    exact Or.inl ⟨rfl, rfl⟩
  | cons c rest =>
    rw [Lazy.SpanFilters.fieldsPart] at h
    by_cases hc : c = '{'
    · subst hc
      rw [if_pos rfl] at h
      cases hsc : splitChar '}' rest with
      | none => rw [hsc] at h; cases h
      | some p =>
        obtain ⟨content, after⟩ := p
        rw [hsc] at h
        simp only [Except.ok.injEq, Prod.mk.injEq] at h
        obtain ⟨rfl, rfl⟩ := h
        refine Or.inr ⟨content, rfl, ?_⟩
        have hre := splitChar_eq '}' rest content after hsc
        simp [hre]
    · rw [if_neg hc] at h
      simp only [Except.ok.injEq, Prod.mk.injEq] at h
      obtain ⟨rfl, rfl⟩ := h
      exact Or.inl ⟨rfl, rfl⟩

theorem Filters_levelPart_ok (s : List Char) (lv : Option (List Char)) (s3 : List Char)
    (h : Lazy.Filters.levelPart s = .ok (lv, s3)) :
    (lv = none ∧ s = s3) ∨ ∃ l, lv = some l ∧ s = '=' :: l ++ s3 := by
  cases s with
  | nil =>
    rw [Lazy.Filters.levelPart] at h
    simp only [Except.ok.injEq, Prod.mk.injEq] at h
    obtain ⟨rfl, rfl⟩ := h
    exact Or.inl ⟨rfl, rfl⟩
  | cons c rest =>
    rw [Lazy.Filters.levelPart] at h
    by_cases hc : c = ','
    · rw [if_pos hc] at h
      simp only [Except.ok.injEq, Prod.mk.injEq] at h
      obtain ⟨rfl, rfl⟩ := h
      exact Or.inl ⟨rfl, rfl⟩
    · rw [if_neg hc] at h
      by_cases he : c = '='
      · subst he
        rw [if_pos rfl] at h
        have happ := spanP_append_eq (fun c => !isSyntaxChar c) rest
        cases hsp : spanP (fun c => !isSyntaxChar c) rest with
        | mk pre post =>
          simp only [hsp] at h happ
          cases post with
          | nil =>
            simp only [Except.ok.injEq, Prod.mk.injEq] at h
            obtain ⟨rfl, rfl⟩ := h
            exact Or.inr ⟨pre, rfl, by simp [← happ]⟩
          | cons c' r2 =>
            dsimp only at h
            by_cases hcc : c' = ','
            · rw [if_pos hcc] at h
              simp only [Except.ok.injEq, Prod.mk.injEq] at h
              obtain ⟨rfl, rfl⟩ := h
              exact Or.inr ⟨pre, rfl, by simp [← happ]⟩
            · rw [if_neg hcc] at h
              cases h
      · rw [if_neg he] at h
        cases h

theorem FieldFilters_valuePart_ok (s : List Char) (v : Option (List Char)) (s2 : List Char)
    (h : Lazy.FieldFilters.valuePart s = .ok (v, s2)) :
    (v = none ∧ s = s2) ∨ ∃ x, v = some x ∧ s = '=' :: x ++ s2 := by
  cases s with
  | nil =>
    rw [Lazy.FieldFilters.valuePart] at h
    simp only [Except.ok.injEq, Prod.mk.injEq] at h
    obtain ⟨rfl, rfl⟩ := h
    exact Or.inl ⟨rfl, rfl⟩
  | cons c rest =>
    rw [Lazy.FieldFilters.valuePart] at h
    by_cases hc : c = '='
    · subst hc
      rw [if_pos rfl] at h
      have happ := spanP_append_eq (fun c => !isSyntaxChar c) rest
      cases hsp : spanP (fun c => !isSyntaxChar c) rest with
      | mk pre post =>
        simp only [hsp] at h happ
        cases post with
        | nil =>
          simp only [Except.ok.injEq, Prod.mk.injEq] at h
          obtain ⟨rfl, rfl⟩ := h
          exact Or.inr ⟨pre, rfl, by simp [← happ]⟩
        | cons c' r2 =>
          dsimp only at h
          by_cases hcc : c' = ','
          · rw [if_pos hcc] at h
            simp only [Except.ok.injEq, Prod.mk.injEq] at h
            obtain ⟨rfl, rfl⟩ := h
            exact Or.inr ⟨pre, rfl, by simp [← happ]⟩
          · rw [if_neg hcc] at h
            cases h
    · rw [if_neg hc] at h
      simp only [Except.ok.injEq, Prod.mk.injEq] at h
      obtain ⟨rfl, rfl⟩ := h
      exact Or.inl ⟨rfl, rfl⟩

theorem Filters_comma_ok (s s4 : List Char) (h : Lazy.Filters.comma s = .ok s4) :
    s = ',' :: s4 ∨ (s = [] ∧ s4 = []) := by
  cases s with
  | nil =>
    rw [Lazy.Filters.comma] at h
    simp only [Except.ok.injEq] at h
    exact Or.inr ⟨rfl, h.symm⟩
  | cons c rest =>
    rw [Lazy.Filters.comma] at h
    by_cases hc : c = ','
    · subst hc
      rw [if_pos rfl] at h
      simp only [Except.ok.injEq] at h
      exact Or.inl (by rw [h])
    · rw [if_neg hc] at h
      cases h

theorem SpanFilters_comma_ok (s s4 : List Char) (h : Lazy.SpanFilters.comma s = .ok s4) :
    s = ',' :: s4 ∨ (s = [] ∧ s4 = []) := by
  cases s with
  | nil =>
    rw [Lazy.SpanFilters.comma] at h
    simp only [Except.ok.injEq] at h
    exact Or.inr ⟨rfl, h.symm⟩
  | cons c rest =>
    rw [Lazy.SpanFilters.comma] at h
    by_cases hc : c = ','
    · subst hc
      rw [if_pos rfl] at h
      simp only [Except.ok.injEq] at h
      exact Or.inl (by rw [h])
    · rw [if_neg hc] at h
      cases h

theorem FieldFilters_comma_ok (s s4 : List Char) (h : Lazy.FieldFilters.comma s = .ok s4) :
    s = ',' :: s4 ∨ (s = [] ∧ s4 = []) := by
  cases s with
  | nil =>
    rw [Lazy.FieldFilters.comma] at h
    simp only [Except.ok.injEq] at h
    exact Or.inr ⟨rfl, h.symm⟩
  | cons c rest =>
    rw [Lazy.FieldFilters.comma] at h
    by_cases hc : c = ','
    · subst hc
      rw [if_pos rfl] at h
      simp only [Except.ok.injEq] at h
      exact Or.inl (by rw [h])
    · rw [if_neg hc] at h
      cases h

theorem Filters_next_none (s : List Char) (h : Lazy.Filters.next s = none) : s = [] := by
  by_contra hs
  rw [Lazy.Filters.next, if_neg hs] at h
  by_cases hr : (s.contains '"' || s.contains '/') = true
  · rw [if_pos hr] at h
    cases h
  · rw [if_neg hr] at h
    cases hc : Lazy.Filters.nextCore s with
    | ok p =>
      obtain ⟨f, st⟩ := p
      simp only [hc] at h
      cases h
    | error e =>
      simp only [hc] at h
      cases h

theorem SpanFilters_next_none (s : List Char) (h : Lazy.SpanFilters.next s = none) : s = [] := by
  by_contra hs
  rw [Lazy.SpanFilters.next, if_neg hs] at h
  by_cases hr : (s.contains '"' || s.contains '/') = true
  · rw [if_pos hr] at h
    cases h
  · rw [if_neg hr] at h
    cases hc : Lazy.SpanFilters.nextCore s with
    | ok p =>
      obtain ⟨f, st⟩ := p
      simp only [hc] at h
      cases h
    | error e =>
      simp only [hc] at h
      cases h

theorem FieldFilters_next_none (s : List Char) (h : Lazy.FieldFilters.next s = none) : s = [] := by
  by_contra hs
  rw [Lazy.FieldFilters.next, if_neg hs] at h
  by_cases hr : (s.contains '"' || s.contains '/') = true
  · rw [if_pos hr] at h
    cases h
  · rw [if_neg hr] at h
    cases hc : Lazy.FieldFilters.nextCore s with
    | ok p =>
      obtain ⟨f, st⟩ := p
      simp only [hc] at h
      cases h
    | error e =>
      simp only [hc] at h
      cases h

theorem FieldFilters_next_ok (s : List Char) (f : Lazy.FieldFilter) (s' : List Char)
    (h : Lazy.FieldFilters.next s = some (.ok f, s')) :
    (s' = [] ∧ s = Eager.renderField f) ∨ s = Eager.renderField f ++ ',' :: s' := by
  by_cases hs : s = []
  · rw [Lazy.FieldFilters.next, if_pos hs] at h
    cases h
  rw [Lazy.FieldFilters.next, if_neg hs] at h
  by_cases hr : (s.contains '"' || s.contains '/') = true
  · rw [if_pos hr] at h
    simp at h
  rw [if_neg hr] at h
  cases hc : Lazy.FieldFilters.nextCore s with
  | error e =>
    simp only [hc] at h
    simp at h
  | ok p =>
    obtain ⟨f0, st⟩ := p
    simp only [hc, Option.some.injEq, Prod.mk.injEq, Except.ok.injEq] at h
    obtain ⟨rfl, rfl⟩ := h
    rw [Lazy.FieldFilters.nextCore] at hc
    cases ht : Lazy.FieldFilters.name s with
    | error e =>
      simp only [ht] at hc
      cases hc
    | ok p1 =>
      obtain ⟨nm, s1⟩ := p1
      simp only [ht] at hc
      cases hv : Lazy.FieldFilters.valuePart s1 with
      | error e =>
        simp only [hv] at hc
        cases hc
      | ok p2 =>
        obtain ⟨v, s2⟩ := p2
        simp only [hv] at hc
        cases hcm : Lazy.FieldFilters.comma s2 with
        | error e =>
          simp only [hcm] at hc
          cases hc
        | ok s4 =>
          simp only [hcm, Except.ok.injEq, Prod.mk.injEq] at hc
          obtain ⟨hf, rfl⟩ := hc
          subst hf
          have e1 := FieldFilters_name_ok s nm s1 ht
          rcases FieldFilters_valuePart_ok s1 v s2 hv with ⟨rfl, e2⟩ | ⟨x, rfl, e2⟩
          · rcases FieldFilters_comma_ok s2 s4 hcm with hcm' | ⟨rfl, rfl⟩
            · right
              rw [e1, e2, hcm']
              simp [Eager.renderField]
            · left
              refine ⟨rfl, ?_⟩
              rw [e1, e2]
              simp [Eager.renderField]
          · rcases FieldFilters_comma_ok s2 s4 hcm with hcm' | ⟨rfl, rfl⟩
            · right
              rw [e1, e2, hcm']
              simp [Eager.renderField]
            · left
              refine ⟨rfl, ?_⟩
              rw [e1, e2]
              simp [Eager.renderField]

theorem SpanFilters_next_ok (s : List Char) (f : Lazy.SpanFilter) (s' : List Char)
    (h : Lazy.SpanFilters.next s = some (.ok f, s')) :
    (s' = [] ∧ s = Lazy.spanBody f) ∨ s = Lazy.spanBody f ++ ',' :: s' := by
  by_cases hs : s = []
  · rw [Lazy.SpanFilters.next, if_pos hs] at h
    cases h
  rw [Lazy.SpanFilters.next, if_neg hs] at h
  by_cases hr : (s.contains '"' || s.contains '/') = true
  · rw [if_pos hr] at h
    simp at h
  rw [if_neg hr] at h
  cases hc : Lazy.SpanFilters.nextCore s with
  | error e =>
    simp only [hc] at h
    simp at h
  | ok p =>
    obtain ⟨f0, st⟩ := p
    simp only [hc, Option.some.injEq, Prod.mk.injEq, Except.ok.injEq] at h
    obtain ⟨rfl, rfl⟩ := h
    rw [Lazy.SpanFilters.nextCore] at hc
    cases ht : Lazy.SpanFilters.name s with
    | error e =>
      simp only [ht] at hc
      cases hc
    | ok p1 =>
      obtain ⟨nm, s1⟩ := p1
      simp only [ht] at hc
      cases hv : Lazy.SpanFilters.fieldsPart s1 with
      | error e =>
        simp only [hv] at hc
        cases hc
      | ok p2 =>
        obtain ⟨fd, s2⟩ := p2
        simp only [hv] at hc
        cases hcm : Lazy.SpanFilters.comma s2 with
        | error e =>
          simp only [hcm] at hc
          cases hc
        | ok s4 =>
          simp only [hcm, Except.ok.injEq, Prod.mk.injEq] at hc
          obtain ⟨hf, rfl⟩ := hc
          subst hf
          have e1 := SpanFilters_name_ok s nm s1 ht
          rcases SpanFilters_fieldsPart_ok s1 fd s2 hv with ⟨rfl, e2⟩ | ⟨x, rfl, e2⟩
          · rcases SpanFilters_comma_ok s2 s4 hcm with hcm' | ⟨rfl, rfl⟩
            · right
              rw [e1, e2, hcm']
              simp [Lazy.spanBody]
            · left
              refine ⟨rfl, ?_⟩
              rw [e1, e2]
              simp [Lazy.spanBody]
          · rcases SpanFilters_comma_ok s2 s4 hcm with hcm' | ⟨rfl, rfl⟩
            · right
              rw [e1, e2, hcm']
              simp [Lazy.spanBody]
            · left
              refine ⟨rfl, ?_⟩
              rw [e1, e2]
              simp [Lazy.spanBody]

theorem Filters_next_ok (s : List Char) (f : Lazy.Filter) (s' : List Char)
    (h : Lazy.Filters.next s = some (.ok f, s')) :
    (s' = [] ∧ s = Lazy.filterBody f) ∨ s = Lazy.filterBody f ++ ',' :: s' := by
  by_cases hs : s = []
  · rw [Lazy.Filters.next, if_pos hs] at h
    cases h
  rw [Lazy.Filters.next, if_neg hs] at h
  by_cases hr : (s.contains '"' || s.contains '/') = true
  · rw [if_pos hr] at h
    simp at h
  rw [if_neg hr] at h
  cases hc : Lazy.Filters.nextCore s with
  | error e =>
    simp only [hc] at h
    simp at h
  | ok p =>
    obtain ⟨f0, st⟩ := p
    simp only [hc, Option.some.injEq, Prod.mk.injEq, Except.ok.injEq] at h
    obtain ⟨rfl, rfl⟩ := h
    rw [Lazy.Filters.nextCore] at hc
    cases ht : Lazy.Filters.target s with
    | error e =>
      simp only [ht] at hc
      cases hc
    | ok p1 =>
      obtain ⟨tgt, s1⟩ := p1
      simp only [ht] at hc
      cases hsp2 : Lazy.Filters.spanPart s1 with
      | error e =>
        simp only [hsp2] at hc
        cases hc
      | ok p2 =>
        obtain ⟨sp, s2⟩ := p2
        simp only [hsp2] at hc
        cases hlv : Lazy.Filters.levelPart s2 with
        | error e =>
          simp only [hlv] at hc
          cases hc
        | ok p3 =>
          obtain ⟨lv, s3⟩ := p3
          simp only [hlv] at hc
          cases hcm : Lazy.Filters.comma s3 with
          | error e =>
            simp only [hcm] at hc
            cases hc
          | ok s4 =>
            simp only [hcm, Except.ok.injEq, Prod.mk.injEq] at hc
            obtain ⟨hf, rfl⟩ := hc
            subst hf
            have e1 := Filters_target_ok s tgt s1 ht
            rcases Filters_spanPart_ok s1 sp s2 hsp2 with ⟨rfl, e2⟩ | ⟨c, rfl, e2⟩ <;>
              rcases Filters_levelPart_ok s2 lv s3 hlv with ⟨rfl, e3⟩ | ⟨l, rfl, e3⟩ <;>
              rcases Filters_comma_ok s3 s4 hcm with hcm' | ⟨rfl, rfl⟩
            · right
              rw [e1, e2, e3, hcm']
              simp [Lazy.filterBody]
            · left
              refine ⟨rfl, ?_⟩
              rw [e1, e2, e3]
              simp [Lazy.filterBody]
            · right
              rw [e1, e2, e3, hcm']
              simp [Lazy.filterBody]
            · left
              refine ⟨rfl, ?_⟩
              rw [e1, e2, e3]
              simp [Lazy.filterBody]
            · right
              rw [e1, e2, e3, hcm']
              simp [Lazy.filterBody]
            · left
              refine ⟨rfl, ?_⟩
              rw [e1, e2, e3]
              simp [Lazy.filterBody]
            · right
              rw [e1, e2, e3, hcm']
              simp [Lazy.filterBody]
            · left
              refine ⟨rfl, ?_⟩
              rw [e1, e2, e3]
              simp [Lazy.filterBody]

theorem collectFields_nil (n : Nat) (fs : List Lazy.FieldFilter)
    (h : Eager.collectFields n [] = some (.ok fs)) : fs = [] := by
  cases n with
  | zero => cases h
  | succ n =>
    rw [Eager.collectFields,
      show Lazy.FieldFilters.next ([] : List Char) = none from rfl] at h
    simpa using h.symm

theorem collectFields_rec : ∀ (n : Nat) (s : List Char) (fs : List Lazy.FieldFilter),
    Eager.collectFields n s = some (.ok fs) → RecList RecField fs s := by
  intro n
  induction n with
  | zero => intro s fs h; cases h
  | succ n ih =>
    intro s fs h
    rw [Eager.collectFields] at h
    cases hnext : Lazy.FieldFilters.next s with
    | none =>
      have hs := FieldFilters_next_none s hnext
      subst hs
      simp only [hnext, Option.some.injEq, Except.ok.injEq] at h
      subst h
      exact RecList.nil
    | some p =>
      obtain ⟨res, s'⟩ := p
      cases res with
      | error e =>
        simp only [hnext] at h
        cases h
      | ok f =>
        simp only [hnext] at h
        cases hrec : Eager.collectFields n s' with
        | none =>
          simp only [hrec] at h
          cases h
        | some r =>
          cases r with
          | error e =>
            simp only [hrec] at h
            cases h
          | ok fs' =>
            simp only [hrec, Option.some.injEq, Except.ok.injEq] at h
            subst h
            have hrl := ih s' fs' hrec
            rcases FieldFilters_next_ok s f s' hnext with ⟨rfl, hbody⟩ | hbody
            · obtain rfl := collectFields_nil n fs' hrec
              rw [hbody]
              exact RecList.last f _ rfl
            · rw [hbody]
              exact RecList.cons f _ fs' s' rfl hrl

theorem convFields_recSpan (n : Nat) (sf : Lazy.SpanFilter) (fds : Option (List Lazy.FieldFilter))
    (hcv : Eager.convFields n sf.fields = some (.ok fds)) :
    RecSpan { name := sf.name, fields := fds } (Lazy.spanBody sf) := by
  cases hsf : sf.fields with
  | none =>
    rw [hsf, Eager.convFields] at hcv
    simp only [Option.some.injEq, Except.ok.injEq] at hcv
    subst hcv
    show Lazy.spanBody sf = sf.name
    rw [Lazy.spanBody, hsf]
    simp
  | some content =>
    rw [hsf, Eager.convFields] at hcv
    cases hcf : Eager.collectFields n content with
    | none =>
      rw [hcf] at hcv
      cases hcv
    | some r =>
      cases r with
      | error e =>
        rw [hcf] at hcv
        cases hcv
      | ok ffs =>
        simp only [hcf, Option.some.injEq, Except.ok.injEq] at hcv
        subst hcv
        refine ⟨content, collectFields_rec n content ffs hcf, ?_⟩
        rw [Lazy.spanBody, hsf]
        simp

theorem collectSpans_nil (n : Nat) (sps : List Eager.SpanFilter)
    (h : Eager.collectSpans n [] = some (.ok sps)) : sps = [] := by
  cases n with
  | zero => cases h
  | succ n =>
    rw [Eager.collectSpans,
      show Lazy.SpanFilters.next ([] : List Char) = none from rfl] at h
    simpa using h.symm

theorem collectSpans_rec : ∀ (n : Nat) (s : List Char) (sps : List Eager.SpanFilter),
    Eager.collectSpans n s = some (.ok sps) → RecList RecSpan sps s := by
  intro n
  induction n with
  | zero => intro s sps h; cases h
  | succ n ih =>
    intro s sps h
    rw [Eager.collectSpans] at h
    cases hnext : Lazy.SpanFilters.next s with
    | none =>
      have hs := SpanFilters_next_none s hnext
      subst hs
      simp only [hnext, Option.some.injEq, Except.ok.injEq] at h
      subst h
      exact RecList.nil
    | some p =>
      obtain ⟨res, s'⟩ := p
      cases res with
      | error e =>
        simp only [hnext] at h
        cases h
      | ok sf =>
        simp only [hnext] at h
        cases hcv : Eager.convFields n sf.fields with
        | none =>
          simp only [hcv] at h
          cases h
        | some r1 =>
          cases r1 with
          | error e =>
            simp only [hcv] at h
            cases h
          | ok fds =>
            simp only [hcv] at h
            cases hrec : Eager.collectSpans n s' with
            | none =>
              simp only [hrec] at h
              cases h
            | some r2 =>
              cases r2 with
              | error e =>
                simp only [hrec] at h
                cases h
              | ok sps' =>
                simp only [hrec, Option.some.injEq, Except.ok.injEq] at h
                subst h
                have hpiece := convFields_recSpan n sf fds hcv
                have hrl := ih s' sps' hrec
                rcases SpanFilters_next_ok s sf s' hnext with ⟨rfl, hbody⟩ | hbody
                · obtain rfl := collectSpans_nil n sps' hrec
                  rw [hbody]
                  exact RecList.last _ _ hpiece
                · rw [hbody]
                  exact RecList.cons _ _ sps' s' hpiece hrl

theorem convSpans_recFilter (n : Nat) (lf : Lazy.Filter) (sps : Option (List Eager.SpanFilter))
    (hcv : Eager.convSpans n lf.span = some (.ok sps)) :
    RecFilter { target := lf.target, span := sps, level := lf.level } (Lazy.filterBody lf) := by
  cases hsf : lf.span with
  | none =>
    rw [hsf, Eager.convSpans] at hcv
    simp only [Option.some.injEq, Except.ok.injEq] at hcv
    subst hcv
    refine ⟨[], (match lf.level with | none => [] | some l => '=' :: l), ?_, rfl, ?_⟩
    · rw [Lazy.filterBody, hsf]
    · cases lf.level <;> rfl
  | some content =>
    rw [hsf, Eager.convSpans] at hcv
    cases hcs : Eager.collectSpans n content with
    | none =>
      rw [hcs] at hcv
      cases hcv
    | some r =>
      cases r with
      | error e =>
        rw [hcs] at hcv
        cases hcv
      | ok sps' =>
        simp only [hcs, Option.some.injEq, Except.ok.injEq] at hcv
        subst hcv
        refine ⟨'[' :: content ++ [']'],
          (match lf.level with | none => [] | some l => '=' :: l), ?_,
          ⟨content, collectSpans_rec n content sps' hcs, rfl⟩, ?_⟩
        · rw [Lazy.filterBody, hsf]
        · cases lf.level <;> rfl

theorem collectFilters_nil (n : Nat) (fs : List Eager.Filter)
    (h : Eager.collectFilters n [] = some (.ok fs)) : fs = [] := by
  cases n with
  | zero => cases h
  | succ n =>
    rw [Eager.collectFilters,
      show Lazy.Filters.next ([] : List Char) = none from rfl] at h
    simpa using h.symm

theorem collectFilters_rec : ∀ (n : Nat) (s : List Char) (fs : List Eager.Filter),
    Eager.collectFilters n s = some (.ok fs) → RecList RecFilter fs s := by
  intro n
  induction n with
  | zero => intro s fs h; cases h
  | succ n ih =>
    intro s fs h
    rw [Eager.collectFilters] at h
    cases hnext : Lazy.Filters.next s with
    | none =>
      have hs := Filters_next_none s hnext
      subst hs
      simp only [hnext, Option.some.injEq, Except.ok.injEq] at h
      subst h
      exact RecList.nil
    | some p =>
      obtain ⟨res, s'⟩ := p
      cases res with
      | error e =>
        simp only [hnext] at h
        cases h
      | ok lf =>
        simp only [hnext] at h
        cases hcv : Eager.convSpans n lf.span with
        | none =>
          simp only [hcv] at h
          cases h
        | some r1 =>
          cases r1 with
          | error e =>
            simp only [hcv] at h
            cases h
          | ok sps =>
            simp only [hcv] at h
            cases hrec : Eager.collectFilters n s' with
            | none =>
              simp only [hrec] at h
              cases h
            | some r2 =>
              cases r2 with
              | error e =>
                simp only [hrec] at h
                cases h
              | ok fs' =>
                simp only [hrec, Option.some.injEq, Except.ok.injEq] at h
                subst h
                have hpiece := convSpans_recFilter n lf sps hcv
                have hrl := ih s' fs' hrec
                rcases Filters_next_ok s lf s' hnext with ⟨rfl, hbody⟩ | hbody
                · obtain rfl := collectFilters_nil n fs' hrec
                  rw [hbody]
                  exact RecList.last _ _ hpiece
                · rw [hbody]
                  exact RecList.cons _ _ fs' s' hpiece hrl

/-- **C7 (amended).** For every input on which the lazy parse, fully pulled
at all three levels (the eager collection), succeeds, every yielded target,
span name, field name, field value and level string is a contiguous slice of
the input, and concatenating each filter's slices with their separating
structural bytes in yield order reconstructs the input exactly — except
that each comma-separated list (the top-level filters, a `[…]` span list, a
`{…}` field list) may additionally have consumed one trailing `,` that the
yielded slices do not record (`RecList` permits exactly that one optional
trailing comma per list; with no trailing commas the reconstruction is
exact). -/
theorem c7_zero_copy_reconstruction (n : Nat) (s : List Char) (fs : List Eager.Filter)
    (h : Eager.collectFilters n s = some (.ok fs)) : RecList RecFilter fs s :=
  collectFilters_rec n s fs h

/-- Counterexample to C7 as stated: `"a,"` is fully parsed successfully
into the single filter with target `a` and nothing else, but the exact
concatenation of its slices with separating structural bytes
(`Eager.renderFilters`) is `"a"`, not `"a,"` — the trailing comma the
parser consumed is not represented in the yielded filters. -/
theorem c7_zero_copy_reconstruction_counterexample :
    Eager.filters (strL "a,")
        = some (.ok [{ target := strL "a", span := none, level := none }]) ∧
    Eager.renderFilters [{ target := strL "a", span := none, level := none }]
        ≠ strL "a," := by
  constructor
  · rfl
  · decide

/-- Witness for the amended C7 at the concrete input `"t=info"`. -/
theorem c7_zero_copy_reconstruction_witness :
    RecList RecFilter [{ target := strL "t", span := none, level := some (strL "info") }]
      (strL "t=info") :=
  c7_zero_copy_reconstruction 7 (strL "t=info")
    [{ target := strL "t", span := none, level := some (strL "info") }] (by rfl)
